import Mathlib

/-!
Verification of `break_up_large_documents.py` (evergreen-ci/logkeeper).

The script walks the `logs` collection of a MongoDB store in ascending `_id`
order and breaks every log document whose aggregate line size exceeds 4 MiB
into several smaller documents, shifting the `seq` values of the later logs in
the same owner scope and bumping the owner's (`test` or `build`) `seq` counter.

Shallow embedding conventions:
* A MongoDB document becomes a Lean structure.  A line `[timestamp, payload]`
  is modelled as a `Line` record carrying the timestamp, the payload length
  (`size`, the only attribute of the payload the script reads, via
  `len(line[1])`) and an abstract payload identifier (`data`), since payloads
  are moved around whole and never inspected otherwise.
* `_id` values are natural numbers.  MongoDB assigns fresh, strictly
  increasing `_id`s to inserted documents; the store therefore carries a
  `nextId` counter and `insert_many` consumes ids `nextId, nextId+1, ...`.
* The cursor `logs.find().sort("_id", pymongo.ASCENDING)` is modelled as the
  ascending list of the `_id`s present when the scan starts; at each step the
  current document is re-read from the live store (a previously processed
  sibling may already have had its `seq` shifted by the time it is visited).
* `update_many`/`update_one`/`delete_one` follow MongoDB semantics:
  `update_many` updates every match, the `_one` variants act on the first
  match only.  The filter value `log.get("test_id")` is `None` for a log
  without a test, and a `None` filter matches documents missing the field, so
  it is modelled by equality on `Option Nat`.
-/

namespace Logkeeper

/-- One log line `[timestamp, payload]`; `size` is `len(line[1])`. -/
structure Line where
  ts : Nat
  size : Nat
  data : Nat
deriving DecidableEq, Repr

/-- A document of the `logs` collection. -/
structure Log where
  id : Nat
  build_id : Nat
  test_id : Option Nat
  seq : Nat
  started : Nat
  lines : List Line
deriving DecidableEq, Repr

/-- A document of the `builds` collection (only the fields the script uses). -/
structure Build where
  id : Nat
  seq : Nat
deriving DecidableEq, Repr

/-- A document of the `tests` collection (only the fields the script uses). -/
structure TestDoc where
  id : Nat
  build_id : Nat
  seq : Nat
deriving DecidableEq, Repr

/-- The three collections plus the `_id` allocator for `logs` inserts. -/
structure Store where
  builds : List Build
  tests : List TestDoc
  logs : List Log
  nextId : Nat
deriving DecidableEq, Repr

/-- `max_size = 4 * 1024 * 1024`, the 4 MiB threshold of the script. -/
def max_size : Nat := 4 * 1024 * 1024

/-- `size = 0; for line in log["lines"]: size += len(line[1])`. -/
def logSize (log : Log) : Nat :=
  log.lines.foldl (fun s line => s + line.size) 0

/-- State of the splitting loop: `seq` and `curLines`/`newLogSize` describe
the log currently being filled (`new_log`, `new_log_size`), `closed` the
already finished entries of `new_logs`. -/
structure SplitState where
  seq : Nat
  curLines : List Line
  newLogSize : Nat
  closed : List (Nat × List Line)
deriving DecidableEq, Repr

/-- One iteration of `for line in log["lines"]`: if the current new log is
full, close it and start a fresh one with `seq` incremented; then append the
line and add its size. -/
def splitStep (st : SplitState) (line : Line) : SplitState :=
  let st :=
    if max_size < st.newLogSize + line.size then
      { seq := st.seq + 1, curLines := [], newLogSize := 0,
        closed := st.closed ++ [(st.seq, st.curLines)] }
    else st
  { st with curLines := st.curLines ++ [line],
            newLogSize := st.newLogSize + line.size }

/-- The `(seq, lines)` pairs of the `new_logs` list built by the loop,
starting from `seq = s` and an empty first log. -/
def splitChunks (s : Nat) (lines : List Line) : List (Nat × List Line) :=
  let fin := lines.foldl splitStep ⟨s, [], 0, []⟩
  fin.closed ++ [(fin.seq, fin.curLines)]

/-- Final value of the `seq` loop variable after the splitting loop. -/
def splitFinalSeq (s : Nat) (lines : List Line) : Nat :=
  (lines.foldl splitStep ⟨s, [], 0, []⟩).seq

/-- `inc = seq - log["seq"]`. -/
def incOf (log : Log) : Nat :=
  splitFinalSeq log.seq log.lines - log.seq

/-- Materialize the `new_logs` documents: MongoDB assigns consecutive fresh
`_id`s on `insert_many`; `build_id`, `test_id` and `started` are inherited
from the original log. -/
def assignIds (n : Nat) (log : Log) : List (Nat × List Line) → List Log
  | [] => []
  | c :: cs =>
    { id := n, build_id := log.build_id, test_id := log.test_id,
      seq := c.1, started := log.started, lines := c.2 } :: assignIds (n + 1) log cs

/-- The list of replacement documents inserted for an oversized `log`. -/
def newLogs (log : Log) (n : Nat) : List Log :=
  assignIds n log (splitChunks log.seq log.lines)

/-- The `update_many` document update: add `inc` to the `seq` of a log in the
owner scope of the split log with `seq` greater than the split log's. -/
def shiftLog (b : Nat) (t : Option Nat) (s inc : Nat) (l : Log) : Log :=
  if l.build_id = b ∧ l.test_id = t ∧ s < l.seq then { l with seq := l.seq + inc } else l

/-- `delete_one({"_id": i})`: remove the first document with the given id. -/
def deleteOneLog (i : Nat) : List Log → List Log
  | [] => []
  | l :: ls => if l.id = i then ls else l :: deleteOneLog i ls

/-- `tests.update_one({"_id": i}, {"$inc": {"seq": inc}})`. -/
def incTestSeq (i inc : Nat) : List TestDoc → List TestDoc
  | [] => []
  | t :: ts =>
    if t.id = i then { t with seq := t.seq + inc } :: ts else t :: incTestSeq i inc ts

/-- `builds.update_one({"_id": i}, {"$inc": {"seq": inc}})`. -/
def incBuildSeq (i inc : Nat) : List Build → List Build
  | [] => []
  | b :: bs =>
    if b.id = i then { b with seq := b.seq + inc } :: bs else b :: incBuildSeq i inc bs

/-- The body of the scan loop for one log document: skip it if its size is
within bounds, otherwise split it, shift the sibling `seq`s, bump the owner
counter, insert the replacements and delete the original. -/
def processLog (st : Store) (log : Log) : Store :=
  if logSize log ≤ max_size then st
  else
    let inc := incOf log
    let logs1 := st.logs.map (shiftLog log.build_id log.test_id log.seq inc)
    let tests1 :=
      match log.test_id with
      | some tid => incTestSeq tid inc st.tests
      | none => st.tests
    let builds1 :=
      match log.test_id with
      | some _ => st.builds
      | none => incBuildSeq log.build_id inc st.builds
    let nls := newLogs log st.nextId
    { builds := builds1, tests := tests1,
      logs := deleteOneLog log.id (logs1 ++ nls),
      nextId := st.nextId + nls.length }

/-- The `_id`s returned by `logs.find().sort("_id", pymongo.ASCENDING)` at the
start of the scan, in ascending order. -/
def scanIds (st : Store) : List Nat :=
  (st.logs.map (fun l => l.id)).insertionSort (· ≤ ·)

/-- Visiting one cursor position: the document is re-read from the live store
by its `_id` (its `seq` may have been shifted since the scan started). -/
def visitLog (st : Store) (i : Nat) : Store :=
  match st.logs.find? (fun l => l.id = i) with
  | some log => processLog st log
  | none => st

/-- `break_up_large_documents(builds, tests, logs)`. -/
def break_up_large_documents (st : Store) : Store :=
  (scanIds st).foldl visitLog st

end Logkeeper

namespace Logkeeper

/-! ### Generic fold invariant -/

theorem foldl_inv {α β : Type} (f : α → β → α) (P : α → Prop)
    (h : ∀ a b, P a → P (f a b)) :
    ∀ (l : List β) (a : α), P a → P (l.foldl f a) := by
  intro l
  induction l with
  | nil => intro a ha; simpa using ha
  | cons x xs ih =>
    intro a ha
    simpa using ih (f a x) (h a x ha)

/-! ### Structure of the splitting loop -/

/-- The line payloads of a chunk sum up exactly like `new_log_size`. -/
def sumSize (ls : List Line) : Nat := (ls.map Line.size).sum

theorem splitStep_pos (st : SplitState) (line : Line)
    (h : max_size < st.newLogSize + line.size) :
    splitStep st line =
      { seq := st.seq + 1, curLines := [line], newLogSize := line.size,
        closed := st.closed ++ [(st.seq, st.curLines)] } := by
  simp [splitStep, h]

theorem splitStep_neg (st : SplitState) (line : Line)
    (h : ¬ max_size < st.newLogSize + line.size) :
    splitStep st line =
      { st with curLines := st.curLines ++ [line],
                newLogSize := st.newLogSize + line.size } := by
  simp [splitStep, h]

theorem splitChunks_eq (s : Nat) (lines : List Line) :
    splitChunks s lines =
      (lines.foldl splitStep ⟨s, [], 0, []⟩).closed ++
        [((lines.foldl splitStep ⟨s, [], 0, []⟩).seq,
          (lines.foldl splitStep ⟨s, [], 0, []⟩).curLines)] := rfl

theorem foldl_add_size (ls : List Line) :
    ∀ a : Nat, ls.foldl (fun s line => s + line.size) a = a + sumSize ls := by
  induction ls with
  | nil => intro a; simp [sumSize]
  | cons l ls ih => intro a; simp [sumSize, ih, Nat.add_assoc]

theorem logSize_eq_sumSize (log : Log) : logSize log = sumSize log.lines := by
  simpa using foldl_add_size log.lines 0

/-- Concatenation invariant of the splitting loop: the lines distributed so
far, in order, are exactly the lines consumed so far. -/
theorem split_concat (lines : List Line) : ∀ st : SplitState,
    ((lines.foldl splitStep st).closed.map Prod.snd).flatten ++
        (lines.foldl splitStep st).curLines
      = (st.closed.map Prod.snd).flatten ++ st.curLines ++ lines := by
  induction lines with
  | nil => intro st; simp
  | cons l ls ih =>
    intro st
    have step : ((splitStep st l).closed.map Prod.snd).flatten ++
        (splitStep st l).curLines
        = (st.closed.map Prod.snd).flatten ++ st.curLines ++ [l] := by
      unfold splitStep
      split <;> simp
    calc ((((l :: ls).foldl splitStep st)).closed.map Prod.snd).flatten ++
          ((l :: ls).foldl splitStep st).curLines
        = ((ls.foldl splitStep (splitStep st l)).closed.map Prod.snd).flatten ++
          (ls.foldl splitStep (splitStep st l)).curLines := by simp
      _ = ((splitStep st l).closed.map Prod.snd).flatten ++
          (splitStep st l).curLines ++ ls := ih (splitStep st l)
      _ = (st.closed.map Prod.snd).flatten ++ st.curLines ++ [l] ++ ls := by rw [step]
      _ = (st.closed.map Prod.snd).flatten ++ st.curLines ++ (l :: ls) := by simp

/-- The concatenation of the replacement chunks is the original line list. -/
theorem splitChunks_flatten (s : Nat) (lines : List Line) :
    ((splitChunks s lines).map Prod.snd).flatten = lines := by
  unfold splitChunks
  have h := split_concat lines (⟨s, [], 0, []⟩ : SplitState)
  simp at h
  simp [h]

/-- Sequence-number invariant of the splitting loop. -/
def seqInv (s : Nat) (st : SplitState) : Prop :=
  st.seq = s + st.closed.length ∧ st.closed.map Prod.fst = List.range' s st.closed.length

theorem splitStep_seqInv (s : Nat) (st : SplitState) (line : Line)
    (h : seqInv s st) : seqInv s (splitStep st line) := by
  obtain ⟨h1, h2⟩ := h
  by_cases hc : max_size < st.newLogSize + line.size
  · rw [splitStep_pos st line hc]
    constructor
    · simp [h1]; omega
    · simp only [List.length_append, List.map_append, h2, List.length_map, h1]
      simp [List.range'_1_concat]
  · rw [splitStep_neg st line hc]
    exact ⟨h1, h2⟩

theorem split_seqInv (s : Nat) (lines : List Line) :
    seqInv s (lines.foldl splitStep ⟨s, [], 0, []⟩) :=
  foldl_inv splitStep (seqInv s) (fun a b h => splitStep_seqInv s a b h) lines _
    (by constructor <;> simp)

/-- The replacement chunks carry the consecutive `seq` values
`s, s+1, …, s+m-1`. -/
theorem splitChunks_fst (s : Nat) (lines : List Line) :
    (splitChunks s lines).map Prod.fst = List.range' s (splitChunks s lines).length := by
  obtain ⟨h1, h2⟩ := split_seqInv s lines
  unfold splitChunks
  simp [h2, h1, List.range'_1_concat]

theorem splitChunks_length_pos (s : Nat) (lines : List Line) :
    0 < (splitChunks s lines).length := by
  unfold splitChunks
  simp

/-- The loop variable `seq` ends at `s + (m - 1)` where `m` is the number of
replacement chunks. -/
theorem splitFinalSeq_eq (s : Nat) (lines : List Line) :
    splitFinalSeq s lines + 1 = s + (splitChunks s lines).length := by
  obtain ⟨h1, h2⟩ := split_seqInv s lines
  unfold splitFinalSeq splitChunks
  simp [h1]
  omega

/-- `inc` is the number of replacement chunks minus one. -/
theorem incOf_eq (log : Log) :
    incOf log + 1 = (splitChunks log.seq log.lines).length := by
  have h := splitFinalSeq_eq log.seq log.lines
  have hp := splitChunks_length_pos log.seq log.lines
  unfold incOf
  omega

/-- Size invariant of the splitting loop. -/
def sizeOK (c : List Line) : Prop :=
  sumSize c ≤ max_size ∨ ∃ l, c = [l] ∧ max_size < l.size

def sizeInv (st : SplitState) : Prop :=
  st.newLogSize = sumSize st.curLines ∧ (∀ c ∈ st.closed, sizeOK c.2) ∧ sizeOK st.curLines

theorem splitStep_sizeInv (st : SplitState) (line : Line)
    (h : sizeInv st) : sizeInv (splitStep st line) := by
  obtain ⟨h1, h2, h3⟩ := h
  by_cases hc : max_size < st.newLogSize + line.size
  · rw [splitStep_pos st line hc]
    refine ⟨by simp [sumSize], ?_, ?_⟩
    · intro c hcc
      simp at hcc
      rcases hcc with hcc | hcc
      · exact h2 c hcc
      · rw [hcc]; exact h3
    · by_cases hl : max_size < line.size
      · exact Or.inr ⟨line, rfl, hl⟩
      · exact Or.inl (by simp [sumSize]; omega)
  · rw [splitStep_neg st line hc]
    refine ⟨?_, h2, ?_⟩
    · simp [sumSize, h1]
    · left
      have hs : sumSize (st.curLines ++ [line]) = sumSize st.curLines + line.size := by
        simp [sumSize]
      simp only [hs]
      omega

/-- Every replacement chunk fits in `max_size`, except a chunk made of a
single line that is itself larger than `max_size`. -/
theorem splitChunks_sizeOK (s : Nat) (lines : List Line) :
    ∀ c ∈ splitChunks s lines, sizeOK c.2 := by
  have h : sizeInv (lines.foldl splitStep ⟨s, [], 0, []⟩) := by
    refine foldl_inv splitStep sizeInv (fun a b h => splitStep_sizeInv a b h) lines _ ?_
    refine ⟨by simp [sumSize], by simp, Or.inl ?_⟩
    simp [sumSize, max_size]
  obtain ⟨h1, h2, h3⟩ := h
  intro c hc
  unfold splitChunks at hc
  simp at hc
  rcases hc with hc | hc
  · exact h2 c hc
  · rw [hc]; exact h3

/-- Non-emptiness invariant: every finished chunk after the first one holds at
least one line, and once a chunk has been finished the current one is
non-empty. -/
def neInv (st : SplitState) : Prop :=
  (∀ c ∈ st.closed.drop 1, c.2 ≠ []) ∧ (st.closed ≠ [] → st.curLines ≠ [])

theorem splitStep_neInv (st : SplitState) (line : Line)
    (h : neInv st) : neInv (splitStep st line) := by
  obtain ⟨h1, h2⟩ := h
  unfold splitStep neInv
  split
  · constructor
    · intro c hc
      match hcl : st.closed with
      | [] => rw [hcl] at hc; simp at hc
      | d :: ds =>
        rw [hcl] at hc
        simp at hc
        rcases hc with hc | hc
        · exact h1 c (by rw [hcl]; simpa using hc)
        · rw [hc]; simp; exact h2 (by rw [hcl]; simp)
    · intro _; simp
  · exact ⟨h1, by intro hne; simp⟩

theorem splitChunks_tail_ne (s : Nat) (lines : List Line) :
    ∀ c ∈ (splitChunks s lines).drop 1, c.2 ≠ [] := by
  have h : neInv (lines.foldl splitStep ⟨s, [], 0, []⟩) := by
    refine foldl_inv splitStep neInv (fun a b h => splitStep_neInv a b h) lines _ ?_
    exact ⟨by simp, by simp⟩
  obtain ⟨h1, h2⟩ := h
  intro c hc
  rw [splitChunks_eq] at hc
  match hcl : (lines.foldl splitStep ⟨s, [], 0, []⟩).closed with
  | [] => rw [hcl] at hc; simp at hc
  | d :: ds =>
    rw [hcl] at hc
    simp at hc
    rcases hc with hc | hc
    · exact h1 c (by rw [hcl]; simpa using hc)
    · rw [hc]; exact h2 (by rw [hcl]; simp)

/-- If the very first line is already larger than `max_size`, the loop closes
the still-empty first chunk immediately: the first replacement chunk is empty
and keeps `seq = s`. -/
theorem splitChunks_head_big (s : Nat) (line : Line) (rest : List Line)
    (h : max_size < line.size) :
    ∃ tl, splitChunks s (line :: rest) = (s, []) :: tl := by
  have hstep : splitStep ⟨s, [], 0, []⟩ line =
      ⟨s + 1, [line], line.size, [(s, [])]⟩ := by
    rw [splitStep_pos _ line (by simpa using h)]
    simp
  have hinv : ∃ ds, (rest.foldl splitStep ⟨s + 1, [line], line.size, [(s, [])]⟩).closed
      = (s, []) :: ds := by
    refine foldl_inv splitStep (fun st => ∃ ds, st.closed = (s, []) :: ds) ?_ rest _ ⟨[], rfl⟩
    intro a b ⟨ds, hds⟩
    by_cases hc : max_size < a.newLogSize + b.size
    · rw [splitStep_pos a b hc]; exact ⟨ds ++ [(a.seq, a.curLines)], by simp [hds]⟩
    · rw [splitStep_neg a b hc]; exact ⟨ds, hds⟩
  obtain ⟨ds, hds⟩ := hinv
  refine ⟨ds ++ [((((line :: rest)).foldl splitStep ⟨s, [], 0, []⟩).seq,
    (((line :: rest)).foldl splitStep ⟨s, [], 0, []⟩).curLines)], ?_⟩
  rw [splitChunks_eq]
  have hfold : (line :: rest).foldl splitStep ⟨s, [], 0, []⟩
      = rest.foldl splitStep ⟨s + 1, [line], line.size, [(s, [])]⟩ := by
    simp [hstep]
  rw [hfold]
  simp [hds]

/-! ### Structure of the inserted replacement documents -/

theorem assignIds_length (log : Log) (cs : List (Nat × List Line)) :
    ∀ n, (assignIds n log cs).length = cs.length := by
  induction cs with
  | nil => intro n; simp [assignIds]
  | cons c cs ih => intro n; simp [assignIds, ih]

theorem assignIds_map_id (log : Log) (cs : List (Nat × List Line)) :
    ∀ n, (assignIds n log cs).map (fun l => l.id) = List.range' n cs.length := by
  induction cs with
  | nil => intro n; simp [assignIds]
  | cons c cs ih => intro n; simp [assignIds, List.range'_succ, ih]

theorem assignIds_map_seq (log : Log) (cs : List (Nat × List Line)) :
    ∀ n, (assignIds n log cs).map (fun l => l.seq) = cs.map Prod.fst := by
  induction cs with
  | nil => intro n; simp [assignIds]
  | cons c cs ih => intro n; simp [assignIds, ih]

theorem assignIds_map_lines (log : Log) (cs : List (Nat × List Line)) :
    ∀ n, (assignIds n log cs).map (fun l => l.lines) = cs.map Prod.snd := by
  induction cs with
  | nil => intro n; simp [assignIds]
  | cons c cs ih => intro n; simp [assignIds, ih]

theorem assignIds_mem (log : Log) (cs : List (Nat × List Line)) :
    ∀ n, ∀ l ∈ assignIds n log cs,
      l.build_id = log.build_id ∧ l.test_id = log.test_id ∧ l.started = log.started ∧
      n ≤ l.id ∧ l.id < n + cs.length ∧ (l.seq, l.lines) ∈ cs := by
  induction cs with
  | nil => intro n l hl; simp [assignIds] at hl
  | cons c cs ih =>
    intro n l hl
    simp only [assignIds, List.mem_cons] at hl
    rcases hl with hl | hl
    · subst hl
      refine ⟨rfl, rfl, rfl, Nat.le_refl n, by simp, by simp⟩
    · obtain ⟨hb, ht, hs, hn, hlt, hm⟩ := ih (n + 1) l hl
      exact ⟨hb, ht, hs, by omega, by simp; omega, by simp [hm]⟩

theorem newLogs_length (log : Log) (n : Nat) :
    (newLogs log n).length = incOf log + 1 := by
  unfold newLogs
  rw [assignIds_length, incOf_eq]

theorem newLogs_map_seq (log : Log) (n : Nat) :
    (newLogs log n).map (fun l => l.seq) = List.range' log.seq (incOf log + 1) := by
  unfold newLogs
  rw [assignIds_map_seq, splitChunks_fst, incOf_eq]

theorem newLogs_map_id (log : Log) (n : Nat) :
    (newLogs log n).map (fun l => l.id) = List.range' n (incOf log + 1) := by
  unfold newLogs
  rw [assignIds_map_id, incOf_eq]

theorem newLogs_flatten (log : Log) (n : Nat) :
    ((newLogs log n).map (fun l => l.lines)).flatten = log.lines := by
  unfold newLogs
  rw [assignIds_map_lines, splitChunks_flatten]

theorem newLogs_mem (log : Log) (n : Nat) :
    ∀ l ∈ newLogs log n,
      l.build_id = log.build_id ∧ l.test_id = log.test_id ∧ l.started = log.started ∧
      n ≤ l.id ∧ l.id < n + (incOf log + 1) ∧
      (l.seq, l.lines) ∈ splitChunks log.seq log.lines := by
  intro l hl
  obtain ⟨hb, ht, hs, hn, hlt, hm⟩ := assignIds_mem log (splitChunks log.seq log.lines) n l hl
  rw [incOf_eq]
  exact ⟨hb, ht, hs, hn, hlt, hm⟩

/-! ### Owner scopes: filtering logs by `(build_id, test_id, seq)` -/

/-- The logs of owner scope `(b, t)` holding sequence number `k`. -/
def sFilter (logs : List Log) (b : Nat) (t : Option Nat) (k : Nat) : List Log :=
  logs.filter (fun l => decide (l.build_id = b ∧ l.test_id = t ∧ l.seq = k))

/-- How many logs of scope `(b, t)` hold sequence number `k`. -/
def countSeq (logs : List Log) (b : Nat) (t : Option Nat) (k : Nat) : Nat :=
  (sFilter logs b t k).length

/-- The lines stored at sequence number `k` of scope `(b, t)`. -/
def linesAt (logs : List Log) (b : Nat) (t : Option Nat) (k : Nat) : List Line :=
  ((sFilter logs b t k).map (fun l => l.lines)).flatten

/-- The concatenation, in `seq` order `1, …, N`, of the lines of a scope. -/
def scopeLines (logs : List Log) (b : Nat) (t : Option Nat) (N : Nat) : List Line :=
  (List.range' 1 N).flatMap (linesAt logs b t)

theorem sFilter_nil (b : Nat) (t : Option Nat) (k : Nat) : sFilter [] b t k = [] := rfl

theorem sFilter_cons (l : Log) (ls : List Log) (b : Nat) (t : Option Nat) (k : Nat) :
    sFilter (l :: ls) b t k =
      if l.build_id = b ∧ l.test_id = t ∧ l.seq = k
      then l :: sFilter ls b t k else sFilter ls b t k := by
  by_cases h : l.build_id = b ∧ l.test_id = t ∧ l.seq = k <;>
    simp [sFilter, List.filter_cons, h]

theorem sFilter_append (xs ys : List Log) (b : Nat) (t : Option Nat) (k : Nat) :
    sFilter (xs ++ ys) b t k = sFilter xs b t k ++ sFilter ys b t k := by
  simp [sFilter, List.filter_append]

theorem countSeq_append (xs ys : List Log) (b : Nat) (t : Option Nat) (k : Nat) :
    countSeq (xs ++ ys) b t k = countSeq xs b t k + countSeq ys b t k := by
  simp [countSeq, sFilter_append]

theorem linesAt_append (xs ys : List Log) (b : Nat) (t : Option Nat) (k : Nat) :
    linesAt (xs ++ ys) b t k = linesAt xs b t k ++ linesAt ys b t k := by
  simp [linesAt, sFilter_append]

theorem sFilter_eq_nil_of_notScope (ls : List Log) (b : Nat) (t : Option Nat) (k : Nat)
    (h : ∀ l ∈ ls, ¬ (l.build_id = b ∧ l.test_id = t)) : sFilter ls b t k = [] := by
  refine List.filter_eq_nil_iff.mpr ?_
  intro l hl
  simp only [decide_eq_true_eq]
  intro hc
  exact h l hl ⟨hc.1, hc.2.1⟩

theorem linesAt_eq_nil_of_count_zero (ls : List Log) (b : Nat) (t : Option Nat) (k : Nat)
    (h : countSeq ls b t k = 0) : linesAt ls b t k = [] := by
  unfold countSeq at h
  rw [List.length_eq_zero] at h
  simp [linesAt, h]

/-! ### Effect of the sibling shift on a scope -/

theorem shiftLog_pos (b : Nat) (t : Option Nat) (s inc : Nat) (l : Log)
    (h : l.build_id = b ∧ l.test_id = t ∧ s < l.seq) :
    shiftLog b t s inc l = { l with seq := l.seq + inc } := by
  simp [shiftLog, h]

theorem shiftLog_neg (b : Nat) (t : Option Nat) (s inc : Nat) (l : Log)
    (h : ¬ (l.build_id = b ∧ l.test_id = t ∧ s < l.seq)) :
    shiftLog b t s inc l = l := by
  simp only [shiftLog, if_neg h]

theorem shiftLog_id (b : Nat) (t : Option Nat) (s inc : Nat) (l : Log) :
    (shiftLog b t s inc l).id = l.id := by
  unfold shiftLog; split <;> rfl

theorem shiftLog_build_id (b : Nat) (t : Option Nat) (s inc : Nat) (l : Log) :
    (shiftLog b t s inc l).build_id = l.build_id := by
  unfold shiftLog; split <;> rfl

theorem shiftLog_test_id (b : Nat) (t : Option Nat) (s inc : Nat) (l : Log) :
    (shiftLog b t s inc l).test_id = l.test_id := by
  unfold shiftLog; split <;> rfl

theorem shiftLog_lines (b : Nat) (t : Option Nat) (s inc : Nat) (l : Log) :
    (shiftLog b t s inc l).lines = l.lines := by
  unfold shiftLog; split <;> rfl

/-- The shift leaves every other owner scope untouched. -/
theorem sFilter_shift_other (xs : List Log) (b b2 : Nat) (t t2 : Option Nat)
    (s inc k : Nat) (h : ¬ (b2 = b ∧ t2 = t)) :
    sFilter (xs.map (shiftLog b t s inc)) b2 t2 k = sFilter xs b2 t2 k := by
  induction xs with
  | nil => simp [sFilter_nil]
  | cons l ls ih =>
    rw [List.map_cons, sFilter_cons, sFilter_cons]
    by_cases hsc : l.build_id = b ∧ l.test_id = t ∧ s < l.seq
    · rw [shiftLog_pos b t s inc l hsc]
      have hnot : ¬ (l.build_id = b2 ∧ l.test_id = t2) := by
        intro hc
        exact h ⟨by rw [← hc.1, hsc.1], by rw [← hc.2, hsc.2.1]⟩
      rw [if_neg (by simpa using fun ha hb _ => hnot ⟨ha, hb⟩),
          if_neg (by simpa using fun ha hb _ => hnot ⟨ha, hb⟩), ih]
    · rw [shiftLog_neg b t s inc l hsc, ih]

/-- Sequence positions up to `s` are unaffected by the shift. -/
theorem sFilter_shift_low (xs : List Log) (b : Nat) (t : Option Nat)
    (s inc k : Nat) (hk : k ≤ s) :
    sFilter (xs.map (shiftLog b t s inc)) b t k = sFilter xs b t k := by
  induction xs with
  | nil => simp [sFilter_nil]
  | cons l ls ih =>
    rw [List.map_cons, sFilter_cons, sFilter_cons]
    by_cases hsc : l.build_id = b ∧ l.test_id = t ∧ s < l.seq
    · rw [shiftLog_pos b t s inc l hsc]
      have h1 : ¬ (l.seq + inc = k) := by omega
      have h2 : ¬ (l.seq = k) := by omega
      rw [if_neg (by simpa using fun _ _ hc => h1 hc),
          if_neg (by simpa using fun _ _ hc => h2 hc), ih]
    · rw [shiftLog_neg b t s inc l hsc, ih]

/-- No log lands strictly between `s` and `s + inc` after the shift. -/
theorem sFilter_shift_mid (xs : List Log) (b : Nat) (t : Option Nat)
    (s inc k : Nat) (hk1 : s < k) (hk2 : k ≤ s + inc) :
    sFilter (xs.map (shiftLog b t s inc)) b t k = [] := by
  induction xs with
  | nil => simp [sFilter_nil]
  | cons l ls ih =>
    rw [List.map_cons, sFilter_cons]
    by_cases hsc : l.build_id = b ∧ l.test_id = t ∧ s < l.seq
    · rw [shiftLog_pos b t s inc l hsc]
      have h1 : ¬ (l.seq + inc = k) := by omega
      rw [if_neg (by simpa using fun _ _ hc => h1 hc)]
      exact ih
    · rw [shiftLog_neg b t s inc l hsc]
      have h2 : ¬ (l.build_id = b ∧ l.test_id = t ∧ l.seq = k) := by
        intro hc
        rcases Decidable.em (s < l.seq) with hlt | hle
        · exact hsc ⟨hc.1, hc.2.1, hlt⟩
        · omega
      rw [if_neg h2]
      exact ih

/-- Sequence positions above `s + inc` receive exactly the logs previously at
`k - inc` (shifted, with their lines intact). -/
theorem sFilter_shift_high (xs : List Log) (b : Nat) (t : Option Nat)
    (s inc k : Nat) (hk : s + inc < k) :
    sFilter (xs.map (shiftLog b t s inc)) b t k
      = (sFilter xs b t (k - inc)).map (shiftLog b t s inc) := by
  induction xs with
  | nil => simp [sFilter_nil]
  | cons l ls ih =>
    rw [List.map_cons, sFilter_cons, sFilter_cons]
    by_cases hsc : l.build_id = b ∧ l.test_id = t ∧ s < l.seq
    · by_cases hkk : l.seq = k - inc
      · have heq : l.seq + inc = k := by omega
        rw [if_pos (by
            rw [shiftLog_pos b t s inc l hsc]
            exact ⟨hsc.1, hsc.2.1, heq⟩), if_pos ⟨hsc.1, hsc.2.1, hkk⟩]
        rw [List.map_cons, ih]
      · have hne : ¬ (l.seq + inc = k) := by omega
        rw [shiftLog_pos b t s inc l hsc]
        rw [if_neg (by simpa using fun _ _ hc => hne hc),
            if_neg (by simpa using fun _ _ hc => hkk hc)]
        exact ih
    · rw [shiftLog_neg b t s inc l hsc]
      have hgt : l.build_id = b → l.test_id = t → l.seq ≤ s := by
        intro hb ht
        by_contra hlt
        exact hsc ⟨hb, ht, by omega⟩
      have hc1 : ¬ (l.build_id = b ∧ l.test_id = t ∧ l.seq = k) := by
        intro hc
        have := hgt hc.1 hc.2.1
        omega
      have hc2 : ¬ (l.build_id = b ∧ l.test_id = t ∧ l.seq = k - inc) := by
        intro hc
        have := hgt hc.1 hc.2.1
        omega
      rw [if_neg hc1, if_neg hc2, ih]

/-! ### `delete_one` -/

theorem deleteOneLog_sublist (i : Nat) (xs : List Log) :
    (deleteOneLog i xs).Sublist xs := by
  induction xs with
  | nil => simp [deleteOneLog]
  | cons l ls ih =>
    unfold deleteOneLog
    split
    · exact (List.sublist_cons_self l ls)
    · exact List.Sublist.cons₂ l ih

theorem deleteOneLog_of_forall_ne (i : Nat) (xs : List Log)
    (h : ∀ x ∈ xs, x.id ≠ i) : deleteOneLog i xs = xs := by
  induction xs with
  | nil => rfl
  | cons l ls ih =>
    unfold deleteOneLog
    rw [if_neg (h l (by simp)), ih (fun x hx => h x (by simp [hx]))]

theorem deleteOneLog_cons (i : Nat) (l : Log) (ls : List Log) :
    deleteOneLog i (l :: ls) = if l.id = i then ls else l :: deleteOneLog i ls := rfl

theorem deleteOneLog_append_right (i : Nat) (xs ys : List Log)
    (h : ∀ y ∈ ys, y.id ≠ i) :
    deleteOneLog i (xs ++ ys) = deleteOneLog i xs ++ ys := by
  induction xs with
  | nil => simpa [deleteOneLog] using deleteOneLog_of_forall_ne i ys h
  | cons l ls ih =>
    rw [List.cons_append, deleteOneLog_cons, deleteOneLog_cons]
    by_cases hl : l.id = i
    · rw [if_pos hl, if_pos hl]
    · rw [if_neg hl, if_neg hl, ih, List.cons_append]

theorem deleteOneLog_append_cons (x : Log) (as bs : List Log)
    (h : ∀ a ∈ as, a.id ≠ x.id) :
    deleteOneLog x.id (as ++ x :: bs) = as ++ bs := by
  induction as with
  | nil => simp [deleteOneLog_cons]
  | cons a as ih =>
    rw [List.cons_append, deleteOneLog_cons, if_neg (h a (by simp)),
        ih (fun a ha => h a (by simp [ha])), List.cons_append]

theorem mem_deleteOneLog (i : Nat) (xs : List Log) (l : Log)
    (hl : l ∈ xs) (hne : l.id ≠ i) : l ∈ deleteOneLog i xs := by
  induction xs with
  | nil => simp at hl
  | cons x ls ih =>
    unfold deleteOneLog
    rcases List.mem_cons.mp hl with heq | hmem
    · subst heq
      rw [if_neg hne]
      simp
    · split
      · exact hmem
      · simp [ih hmem]

/-! ### Counting over ranges -/

theorem count_range' (k : Nat) : ∀ (s m : Nat),
    List.count k (List.range' s m) = if s ≤ k ∧ k < s + m then 1 else 0 := by
  intro s m
  induction m generalizing s with
  | zero =>
    have h : ¬ (s ≤ k ∧ k < s) := by omega
    simp [h]
  | succ m ih =>
    rw [List.range'_succ, List.count_cons, ih (s + 1)]
    by_cases hk : s = k
    · subst hk
      have h1 : ¬ (s + 1 ≤ s ∧ s < s + 1 + m) := by omega
      have h2 : s ≤ s ∧ s < s + (m + 1) := by omega
      simp [h1, h2]
    · have h3 : (s == k) = false := by simpa using hk
      have h4 : (s + 1 ≤ k ∧ k < s + 1 + m) ↔ (s ≤ k ∧ k < s + (m + 1)) := by omega
      simp [h3, h4]

/-- For a list of logs that all live in scope `(b, t)`, counting a sequence
number reduces to counting it among the `seq` values. -/
theorem countSeq_allScope (ls : List Log) (b : Nat) (t : Option Nat) (k : Nat)
    (h : ∀ l ∈ ls, l.build_id = b ∧ l.test_id = t) :
    countSeq ls b t k = List.count k (ls.map (fun l => l.seq)) := by
  induction ls with
  | nil => simp [countSeq, sFilter_nil]
  | cons l ls ih =>
    obtain ⟨hb, ht⟩ := h l (by simp)
    rw [List.map_cons, List.count_cons, countSeq, sFilter_cons]
    by_cases hk : l.seq = k
    · rw [if_pos ⟨hb, ht, hk⟩]
      simp only [List.length_cons, hk]
      rw [← countSeq, ih (fun x hx => h x (by simp [hx]))]
      simp
    · rw [if_neg (by simpa using fun _ _ hc => hk hc)]
      rw [← countSeq, ih (fun x hx => h x (by simp [hx]))]
      have : ¬ (l.seq == k) = true := by simpa using hk
      simp [this]

/-- Counting sequence numbers among the replacement documents. -/
theorem countSeq_newLogs (log : Log) (n : Nat) (k : Nat) :
    countSeq (newLogs log n) log.build_id log.test_id k
      = if log.seq ≤ k ∧ k < log.seq + (incOf log + 1) then 1 else 0 := by
  rw [countSeq_allScope _ _ _ _
      (fun l hl => ⟨(newLogs_mem log n l hl).1, (newLogs_mem log n l hl).2.1⟩)]
  rw [newLogs_map_seq, count_range']

/-- The replacement documents are invisible to every other owner scope. -/
theorem sFilter_newLogs_other (log : Log) (n : Nat) (b2 : Nat) (t2 : Option Nat) (k : Nat)
    (h : ¬ (b2 = log.build_id ∧ t2 = log.test_id)) :
    sFilter (newLogs log n) b2 t2 k = [] := by
  refine sFilter_eq_nil_of_notScope _ _ _ _ ?_
  intro l hl hc
  obtain ⟨hb, ht, _⟩ := newLogs_mem log n l hl
  exact h ⟨by rw [← hc.1, hb], by rw [← hc.2, ht]⟩

/-! ### Reading a block of consecutive sequence numbers -/

theorem flatMap_congr_mem {α β : Type} (l : List α) (f g : α → List β)
    (h : ∀ a ∈ l, f a = g a) : l.flatMap f = l.flatMap g := by
  induction l with
  | nil => rfl
  | cons x xs ih =>
    rw [List.flatMap_cons, List.flatMap_cons, h x (by simp),
        ih (fun a ha => h a (by simp [ha]))]

/-- Reading positions `s, …, s + len - 1` of a scope whose logs carry exactly
those `seq` values, in order, concatenates their line lists. -/
theorem flatMap_linesAt_block (ls : List Log) (b : Nat) (t : Option Nat) : ∀ s : Nat,
    (∀ l ∈ ls, l.build_id = b ∧ l.test_id = t) →
    ls.map (fun l => l.seq) = List.range' s ls.length →
    (List.range' s ls.length).flatMap (linesAt ls b t)
      = (ls.map (fun l => l.lines)).flatten := by
  induction ls with
  | nil => intro s _ _; simp
  | cons x ls ih =>
    intro s hscope hseq
    simp only [List.map_cons, List.length_cons, List.range'_succ] at hseq ⊢
    obtain ⟨hx, hls⟩ := List.cons.inj hseq
    have hxb := hscope x (by simp)
    have hcount0 : countSeq ls b t s = 0 := by
      rw [countSeq_allScope ls b t s (fun l hl => hscope l (by simp [hl])), hls,
          count_range']
      have hno : ¬ (s + 1 ≤ s ∧ s < s + 1 + ls.length) := by omega
      simp [hno]
    rw [List.flatMap_cons]
    have hhead : linesAt (x :: ls) b t s = x.lines := by
      unfold linesAt
      rw [sFilter_cons, if_pos ⟨hxb.1, hxb.2, hx⟩]
      rw [List.map_cons]
      have := linesAt_eq_nil_of_count_zero ls b t s hcount0
      unfold linesAt at this
      simp [this]
    have htail : (List.range' (s + 1) ls.length).flatMap (linesAt (x :: ls) b t)
        = (List.range' (s + 1) ls.length).flatMap (linesAt ls b t) := by
      refine flatMap_congr_mem _ _ _ ?_
      intro k hk
      have hk1 : s + 1 ≤ k := (List.mem_range'_1.mp hk).1
      unfold linesAt
      rw [sFilter_cons, if_neg (by simpa using fun _ _ hc => by omega)]
    rw [hhead, htail, ih (s + 1) (fun l hl => hscope l (by simp [hl])) hls]
    simp

/-! ### The owner-scope invariant -/

/-- All logs of owner scope `(b, t)`. -/
def scopeFilter (logs : List Log) (b : Nat) (t : Option Nat) : List Log :=
  logs.filter (fun l => decide (l.build_id = b ∧ l.test_id = t))

/-- The `seq` values present in owner scope `(b, t)`. -/
def scopeSeqs (logs : List Log) (b : Nat) (t : Option Nat) : List Nat :=
  (scopeFilter logs b t).map (fun l => l.seq)

/-- The scope's `seq` values are exactly `{1, …, N}`, no gaps, no duplicates. -/
def ScopeOK (logs : List Log) (b : Nat) (t : Option Nat) (N : Nat) : Prop :=
  List.Perm (scopeSeqs logs b t) (List.range' 1 N)

/-- Spec invariant 1: every owner's counter is the exact extent of its scope. -/
def Inv (st : Store) : Prop :=
  (∀ bld ∈ st.builds, ScopeOK st.logs bld.id none bld.seq) ∧
  (∀ td ∈ st.tests, ScopeOK st.logs td.build_id (some td.id) td.seq)

/-- Store sanity: primary keys are unique, `nextId` is fresh, and a log owned
by a test lives in that test's build. -/
def WF (st : Store) : Prop :=
  (st.logs.map (fun l => l.id)).Nodup ∧
  (st.builds.map (fun b => b.id)).Nodup ∧
  (st.tests.map (fun t => t.id)).Nodup ∧
  (∀ l ∈ st.logs, l.id < st.nextId) ∧
  (∀ l ∈ st.logs, ∀ td ∈ st.tests, l.test_id = some td.id → l.build_id = td.build_id)

instance (logs : List Log) (b : Nat) (t : Option Nat) (N : Nat) :
    Decidable (ScopeOK logs b t N) := by
  unfold ScopeOK
  infer_instance

instance (st : Store) : Decidable (Inv st) := by
  unfold Inv
  infer_instance

instance (st : Store) : Decidable (WF st) := by
  unfold WF
  infer_instance

theorem countSeq_cons (l : Log) (ls : List Log) (b : Nat) (t : Option Nat) (k : Nat) :
    countSeq (l :: ls) b t k =
      (if l.build_id = b ∧ l.test_id = t ∧ l.seq = k then 1 else 0) + countSeq ls b t k := by
  rw [countSeq, sFilter_cons]
  split
  · simp [countSeq, Nat.add_comm]
  · simp [countSeq]

theorem linesAt_cons (l : Log) (ls : List Log) (b : Nat) (t : Option Nat) (k : Nat) :
    linesAt (l :: ls) b t k =
      (if l.build_id = b ∧ l.test_id = t ∧ l.seq = k then l.lines else []) ++ linesAt ls b t k := by
  rw [linesAt, sFilter_cons]
  split
  · simp [linesAt]
  · simp [linesAt]

theorem count_scopeSeqs (logs : List Log) (b : Nat) (t : Option Nat) (k : Nat) :
    List.count k (scopeSeqs logs b t) = countSeq logs b t k := by
  induction logs with
  | nil => simp [scopeSeqs, scopeFilter, countSeq, sFilter_nil]
  | cons l ls ih =>
    rw [countSeq_cons]
    by_cases hbt : l.build_id = b ∧ l.test_id = t
    · have hsf : scopeSeqs (l :: ls) b t = l.seq :: scopeSeqs ls b t := by
        simp [scopeSeqs, scopeFilter, List.filter_cons, hbt]
      rw [hsf, List.count_cons, ih]
      by_cases hk : l.seq = k
      · have h3 : (l.seq == k) = true := by simpa using hk
        simp [h3, hbt.1, hbt.2, hk, Nat.add_comm]
      · have h3 : (l.seq == k) = false := by simpa using hk
        simp [h3, hk]
    · have hsf : scopeSeqs (l :: ls) b t = scopeSeqs ls b t := by
        simp only [scopeSeqs, scopeFilter, List.filter_cons]
        rw [if_neg (by simpa using fun ha hb => hbt ⟨ha, hb⟩)]
      rw [hsf, ih, if_neg (fun hc => hbt ⟨hc.1, hc.2.1⟩)]
      simp

/-- The invariant, reformulated as a pointwise count of sequence numbers. -/
theorem scopeOK_iff_count (logs : List Log) (b : Nat) (t : Option Nat) (N : Nat) :
    ScopeOK logs b t N ↔
      ∀ k, countSeq logs b t k = if 1 ≤ k ∧ k ≤ N then 1 else 0 := by
  unfold ScopeOK
  rw [List.perm_iff_count]
  constructor
  · intro h k
    have := h k
    rw [count_scopeSeqs, count_range'] at this
    have hiff : (1 ≤ k ∧ k < 1 + N) ↔ (1 ≤ k ∧ k ≤ N) := by omega
    rwa [if_congr hiff rfl rfl] at this
  · intro h k
    rw [count_scopeSeqs, count_range', h k]
    have hiff : (1 ≤ k ∧ k < 1 + N) ↔ (1 ≤ k ∧ k ≤ N) := by omega
    rw [if_congr hiff rfl rfl]

/-- Under the invariant the owner's counter is the number of chunks stored in
its scope. -/
theorem scopeOK_length (logs : List Log) (b : Nat) (t : Option Nat) (N : Nat)
    (h : ScopeOK logs b t N) : (scopeFilter logs b t).length = N := by
  have := List.Perm.length_eq h
  simpa [scopeSeqs] using this

/-! ### Owner lookups and `update_one` on the owner collections -/

def buildSeqL (bs : List Build) (i : Nat) : Nat :=
  match bs.find? (fun b => b.id = i) with
  | some b => b.seq
  | none => 0

def testSeqL (ts : List TestDoc) (i : Nat) : Nat :=
  match ts.find? (fun t => t.id = i) with
  | some t => t.seq
  | none => 0

def testBuildL (ts : List TestDoc) (i : Nat) : Nat :=
  match ts.find? (fun t => t.id = i) with
  | some t => t.build_id
  | none => 0

/-- The owner counter of the build with id `i` (0 if that build is absent). -/
def buildSeq (st : Store) (i : Nat) : Nat := buildSeqL st.builds i

/-- The owner counter of the test with id `i` (0 if that test is absent). -/
def testSeq (st : Store) (i : Nat) : Nat := testSeqL st.tests i

/-- The `build_id` recorded on the test with id `i` (0 if absent). -/
def testBuild (st : Store) (i : Nat) : Nat := testBuildL st.tests i

theorem incBuildSeq_map_id (i inc : Nat) (bs : List Build) :
    (incBuildSeq i inc bs).map (fun b => b.id) = bs.map (fun b => b.id) := by
  induction bs with
  | nil => rfl
  | cons b bs ih =>
    unfold incBuildSeq
    split <;> simp [ih]

theorem incTestSeq_map_id (i inc : Nat) (ts : List TestDoc) :
    (incTestSeq i inc ts).map (fun t => t.id) = ts.map (fun t => t.id) := by
  induction ts with
  | nil => rfl
  | cons t ts ih =>
    unfold incTestSeq
    split <;> simp [ih]

theorem incBuildSeq_of_forall_ne (i inc : Nat) (bs : List Build)
    (h : ∀ b ∈ bs, b.id ≠ i) : incBuildSeq i inc bs = bs := by
  induction bs with
  | nil => rfl
  | cons b bs ih =>
    unfold incBuildSeq
    rw [if_neg (h b (by simp)), ih (fun x hx => h x (by simp [hx]))]

theorem incTestSeq_of_forall_ne (i inc : Nat) (ts : List TestDoc)
    (h : ∀ t ∈ ts, t.id ≠ i) : incTestSeq i inc ts = ts := by
  induction ts with
  | nil => rfl
  | cons t ts ih =>
    unfold incTestSeq
    rw [if_neg (h t (by simp)), ih (fun x hx => h x (by simp [hx]))]

theorem incBuildSeq_eq_map (i inc : Nat) (bs : List Build)
    (h : (bs.map (fun b => b.id)).Nodup) :
    incBuildSeq i inc bs
      = bs.map (fun b => if b.id = i then { b with seq := b.seq + inc } else b) := by
  induction bs with
  | nil => rfl
  | cons b bs ih =>
    rw [List.map_cons, List.nodup_cons] at h
    unfold incBuildSeq
    by_cases hb : b.id = i
    · rw [if_pos hb, List.map_cons, if_pos hb]
      have hne : ∀ x ∈ bs, ¬ x.id = i := by
        intro x hx hxi
        exact h.1 (List.mem_map.mpr ⟨x, hx, by rw [hxi, hb]⟩)
      have hmap : bs.map (fun x => if x.id = i then { x with seq := x.seq + inc } else x) = bs := by
        refine (List.map_congr_left ?_).trans (List.map_id bs)
        intro x hx
        rw [if_neg (hne x hx)]
        rfl
      rw [hmap]
    · rw [if_neg hb, List.map_cons, if_neg hb, ih h.2]

theorem incTestSeq_eq_map (i inc : Nat) (ts : List TestDoc)
    (h : (ts.map (fun t => t.id)).Nodup) :
    incTestSeq i inc ts
      = ts.map (fun t => if t.id = i then { t with seq := t.seq + inc } else t) := by
  induction ts with
  | nil => rfl
  | cons t ts ih =>
    rw [List.map_cons, List.nodup_cons] at h
    unfold incTestSeq
    by_cases ht : t.id = i
    · rw [if_pos ht, List.map_cons, if_pos ht]
      have hne : ∀ x ∈ ts, ¬ x.id = i := by
        intro x hx hxi
        exact h.1 (List.mem_map.mpr ⟨x, hx, by rw [hxi, ht]⟩)
      have hmap : ts.map (fun x => if x.id = i then { x with seq := x.seq + inc } else x) = ts := by
        refine (List.map_congr_left ?_).trans (List.map_id ts)
        intro x hx
        rw [if_neg (hne x hx)]
        rfl
      rw [hmap]
    · rw [if_neg ht, List.map_cons, if_neg ht, ih h.2]

theorem buildSeqL_incBuildSeq_ne (i j inc : Nat) (bs : List Build) (h : j ≠ i) :
    buildSeqL (incBuildSeq i inc bs) j = buildSeqL bs j := by
  induction bs with
  | nil => rfl
  | cons b bs ih =>
    by_cases hb : b.id = i
    · have hbj : ¬ b.id = j := by omega
      unfold incBuildSeq
      rw [if_pos hb]
      unfold buildSeqL
      rw [List.find?_cons_of_neg _ (by simpa using hbj),
          List.find?_cons_of_neg _ (by simpa using hbj)]
    · unfold incBuildSeq
      rw [if_neg hb]
      unfold buildSeqL
      by_cases hbj : b.id = j
      · rw [List.find?_cons_of_pos _ (by simpa using hbj),
            List.find?_cons_of_pos _ (by simpa using hbj)]
      · rw [List.find?_cons_of_neg _ (by simpa using hbj),
            List.find?_cons_of_neg _ (by simpa using hbj)]
        exact ih

theorem buildSeqL_incBuildSeq_same (i inc : Nat) (bs : List Build) (bld : Build)
    (h : bs.find? (fun b => b.id = i) = some bld) :
    buildSeqL (incBuildSeq i inc bs) i = bld.seq + inc := by
  induction bs with
  | nil => simp at h
  | cons b bs ih =>
    by_cases hb : b.id = i
    · rw [List.find?_cons_of_pos _ (by simpa using hb)] at h
      have hbld : b = bld := by simpa using h
      unfold incBuildSeq
      rw [if_pos hb]
      unfold buildSeqL
      rw [List.find?_cons_of_pos _ (by simpa using hb)]
      rw [← hbld]
    · rw [List.find?_cons_of_neg _ (by simpa using hb)] at h
      unfold incBuildSeq
      rw [if_neg hb]
      unfold buildSeqL
      rw [List.find?_cons_of_neg _ (by simpa using hb)]
      exact ih h

theorem buildSeqL_incBuildSeq_none (i inc : Nat) (bs : List Build)
    (h : bs.find? (fun b => b.id = i) = none) :
    incBuildSeq i inc bs = bs := by
  refine incBuildSeq_of_forall_ne i inc bs ?_
  intro b hb
  have := List.find?_eq_none.mp h b hb
  simpa using this

theorem testSeqL_incTestSeq_ne (i j inc : Nat) (ts : List TestDoc) (h : j ≠ i) :
    testSeqL (incTestSeq i inc ts) j = testSeqL ts j := by
  induction ts with
  | nil => rfl
  | cons t ts ih =>
    by_cases ht : t.id = i
    · have htj : ¬ t.id = j := by omega
      unfold incTestSeq
      rw [if_pos ht]
      unfold testSeqL
      rw [List.find?_cons_of_neg _ (by simpa using htj),
          List.find?_cons_of_neg _ (by simpa using htj)]
    · unfold incTestSeq
      rw [if_neg ht]
      unfold testSeqL
      by_cases htj : t.id = j
      · rw [List.find?_cons_of_pos _ (by simpa using htj),
            List.find?_cons_of_pos _ (by simpa using htj)]
      · rw [List.find?_cons_of_neg _ (by simpa using htj),
            List.find?_cons_of_neg _ (by simpa using htj)]
        exact ih

theorem testSeqL_incTestSeq_same (i inc : Nat) (ts : List TestDoc) (td : TestDoc)
    (h : ts.find? (fun t => t.id = i) = some td) :
    testSeqL (incTestSeq i inc ts) i = td.seq + inc := by
  induction ts with
  | nil => simp at h
  | cons t ts ih =>
    by_cases ht : t.id = i
    · rw [List.find?_cons_of_pos _ (by simpa using ht)] at h
      have htd : t = td := by simpa using h
      unfold incTestSeq
      rw [if_pos ht]
      unfold testSeqL
      rw [List.find?_cons_of_pos _ (by simpa using ht)]
      rw [← htd]
    · rw [List.find?_cons_of_neg _ (by simpa using ht)] at h
      unfold incTestSeq
      rw [if_neg ht]
      unfold testSeqL
      rw [List.find?_cons_of_neg _ (by simpa using ht)]
      exact ih h

theorem testSeqL_incTestSeq_none (i inc : Nat) (ts : List TestDoc)
    (h : ts.find? (fun t => t.id = i) = none) :
    incTestSeq i inc ts = ts := by
  refine incTestSeq_of_forall_ne i inc ts ?_
  intro t ht
  have := List.find?_eq_none.mp h t ht
  simpa using this

theorem testBuildL_incTestSeq (i j inc : Nat) (ts : List TestDoc) :
    testBuildL (incTestSeq i inc ts) j = testBuildL ts j := by
  induction ts with
  | nil => rfl
  | cons t ts ih =>
    by_cases ht : t.id = i
    · unfold incTestSeq
      rw [if_pos ht]
      unfold testBuildL
      by_cases htj : t.id = j
      · rw [List.find?_cons_of_pos _ (by simpa using htj),
            List.find?_cons_of_pos _ (by simpa using htj)]
      · rw [List.find?_cons_of_neg _ (by simpa using htj),
            List.find?_cons_of_neg _ (by simpa using htj)]
    · unfold incTestSeq
      rw [if_neg ht]
      unfold testBuildL
      by_cases htj : t.id = j
      · rw [List.find?_cons_of_pos _ (by simpa using htj),
            List.find?_cons_of_pos _ (by simpa using htj)]
      · rw [List.find?_cons_of_neg _ (by simpa using htj),
            List.find?_cons_of_neg _ (by simpa using htj)]
        exact ih

/-! ### Unfolding one scan step -/

theorem processLog_skip (st : Store) (log : Log) (h : logSize log ≤ max_size) :
    processLog st log = st := by
  unfold processLog
  rw [if_pos h]

theorem processLog_logs (st : Store) (log : Log) (h : max_size < logSize log) :
    (processLog st log).logs
      = deleteOneLog log.id
          ((st.logs.map (shiftLog log.build_id log.test_id log.seq (incOf log)))
            ++ newLogs log st.nextId) := by
  unfold processLog
  rw [if_neg (by omega)]

theorem processLog_builds (st : Store) (log : Log) (h : max_size < logSize log) :
    (processLog st log).builds
      = match log.test_id with
        | some _ => st.builds
        | none => incBuildSeq log.build_id (incOf log) st.builds := by
  unfold processLog
  rw [if_neg (by omega)]

theorem processLog_tests (st : Store) (log : Log) (h : max_size < logSize log) :
    (processLog st log).tests
      = match log.test_id with
        | some tid => incTestSeq tid (incOf log) st.tests
        | none => st.tests := by
  unfold processLog
  rw [if_neg (by omega)]

theorem processLog_nextId (st : Store) (log : Log) (h : max_size < logSize log) :
    (processLog st log).nextId = st.nextId + (newLogs log st.nextId).length := by
  unfold processLog
  rw [if_neg (by omega)]

theorem shiftLog_self (log : Log) (inc : Nat) :
    shiftLog log.build_id log.test_id log.seq inc log = log := by
  refine shiftLog_neg _ _ _ _ _ ?_
  intro hc
  exact absurd hc.2.2 (Nat.lt_irrefl _)

/-- Splitting the store around the processed log: the logs of the result are
the shifted logs before it, the shifted logs after it, then the replacements;
the original is gone. -/
theorem processLog_sFilter_decomp (st : Store) (log : Log)
    (hover : max_size < logSize log) (hmem : log ∈ st.logs)
    (hnd : (st.logs.map (fun l => l.id)).Nodup)
    (hlt : ∀ l ∈ st.logs, l.id < st.nextId) :
    ∃ as bs : List Log,
      st.logs = as ++ log :: bs ∧
      ∀ (b2 : Nat) (t2 : Option Nat) (k : Nat),
        sFilter (processLog st log).logs b2 t2 k
          = sFilter (as.map (shiftLog log.build_id log.test_id log.seq (incOf log))) b2 t2 k
            ++ sFilter (bs.map (shiftLog log.build_id log.test_id log.seq (incOf log))) b2 t2 k
            ++ sFilter (newLogs log st.nextId) b2 t2 k := by
  obtain ⟨as, bs, hsplit⟩ := List.append_of_mem hmem
  refine ⟨as, bs, hsplit, ?_⟩
  have hids : ∀ a ∈ as, a.id ≠ log.id := by
    intro a ha hc
    rw [hsplit] at hnd
    rw [List.map_append, List.map_cons, List.nodup_append] at hnd
    exact (List.disjoint_left.mp hnd.2.2) (List.mem_map.mpr ⟨a, ha, rfl⟩) (by rw [hc]; simp)
  have hnls : ∀ y ∈ newLogs log st.nextId, y.id ≠ log.id := by
    intro y hy hc
    have h1 := (newLogs_mem log st.nextId y hy).2.2.2.1
    have h2 := hlt log hmem
    omega
  have hlog : (processLog st log).logs
      = (as.map (shiftLog log.build_id log.test_id log.seq (incOf log))
          ++ bs.map (shiftLog log.build_id log.test_id log.seq (incOf log)))
        ++ newLogs log st.nextId := by
    rw [processLog_logs st log hover, hsplit]
    rw [List.map_append, List.map_cons, shiftLog_self]
    rw [List.append_assoc, List.cons_append]
    rw [deleteOneLog_append_cons log _ _
      (by
        intro a ha
        obtain ⟨x, hx, hxa⟩ := List.mem_map.mp ha
        rw [← hxa, shiftLog_id]
        exact hids x hx)]
    rw [List.append_assoc]
  intro b2 t2 k
  rw [hlog, sFilter_append, sFilter_append, List.append_assoc]

/-! ### Count and line views of the shift -/

theorem countSeq_shift_low (xs : List Log) (b : Nat) (t : Option Nat) (s inc k : Nat)
    (hk : k ≤ s) :
    countSeq (xs.map (shiftLog b t s inc)) b t k = countSeq xs b t k :=
  congrArg List.length (sFilter_shift_low xs b t s inc k hk)

theorem countSeq_shift_mid (xs : List Log) (b : Nat) (t : Option Nat) (s inc k : Nat)
    (hk1 : s < k) (hk2 : k ≤ s + inc) :
    countSeq (xs.map (shiftLog b t s inc)) b t k = 0 := by
  rw [countSeq, sFilter_shift_mid xs b t s inc k hk1 hk2]
  rfl

theorem countSeq_shift_high (xs : List Log) (b : Nat) (t : Option Nat) (s inc k : Nat)
    (hk : s + inc < k) :
    countSeq (xs.map (shiftLog b t s inc)) b t k = countSeq xs b t (k - inc) := by
  rw [countSeq, sFilter_shift_high xs b t s inc k hk, List.length_map]
  rfl

theorem countSeq_shift_other (xs : List Log) (b b2 : Nat) (t t2 : Option Nat)
    (s inc k : Nat) (h : ¬ (b2 = b ∧ t2 = t)) :
    countSeq (xs.map (shiftLog b t s inc)) b2 t2 k = countSeq xs b2 t2 k :=
  congrArg List.length (sFilter_shift_other xs b b2 t t2 s inc k h)

theorem linesAt_shift_low (xs : List Log) (b : Nat) (t : Option Nat) (s inc k : Nat)
    (hk : k ≤ s) :
    linesAt (xs.map (shiftLog b t s inc)) b t k = linesAt xs b t k := by
  rw [linesAt, sFilter_shift_low xs b t s inc k hk]
  rfl

theorem linesAt_shift_mid (xs : List Log) (b : Nat) (t : Option Nat) (s inc k : Nat)
    (hk1 : s < k) (hk2 : k ≤ s + inc) :
    linesAt (xs.map (shiftLog b t s inc)) b t k = [] := by
  rw [linesAt, sFilter_shift_mid xs b t s inc k hk1 hk2]
  rfl

theorem linesAt_shift_high (xs : List Log) (b : Nat) (t : Option Nat) (s inc k : Nat)
    (hk : s + inc < k) :
    linesAt (xs.map (shiftLog b t s inc)) b t k = linesAt xs b t (k - inc) := by
  rw [linesAt, sFilter_shift_high xs b t s inc k hk, List.map_map, linesAt]
  congr 1
  refine List.map_congr_left ?_
  intro x _
  exact shiftLog_lines b t s inc x

theorem linesAt_shift_other (xs : List Log) (b b2 : Nat) (t t2 : Option Nat)
    (s inc k : Nat) (h : ¬ (b2 = b ∧ t2 = t)) :
    linesAt (xs.map (shiftLog b t s inc)) b2 t2 k = linesAt xs b2 t2 k := by
  rw [linesAt, sFilter_shift_other xs b b2 t t2 s inc k h]
  rfl

theorem countSeq_newLogs_other (log : Log) (n : Nat) (b2 : Nat) (t2 : Option Nat) (k : Nat)
    (h : ¬ (b2 = log.build_id ∧ t2 = log.test_id)) :
    countSeq (newLogs log n) b2 t2 k = 0 := by
  rw [countSeq, sFilter_newLogs_other log n b2 t2 k h]
  rfl

theorem linesAt_newLogs_other (log : Log) (n : Nat) (b2 : Nat) (t2 : Option Nat) (k : Nat)
    (h : ¬ (b2 = log.build_id ∧ t2 = log.test_id)) :
    linesAt (newLogs log n) b2 t2 k = [] := by
  rw [linesAt, sFilter_newLogs_other log n b2 t2 k h]
  rfl

/-- A log present in a scope makes the count of its position positive. -/
theorem countSeq_pos_of_mem (logs : List Log) (log : Log) (hmem : log ∈ logs) :
    0 < countSeq logs log.build_id log.test_id log.seq := by
  rw [countSeq]
  have hin : log ∈ sFilter logs log.build_id log.test_id log.seq :=
    List.mem_filter.mpr ⟨hmem, by simp⟩
  exact List.length_pos.mpr (fun hnil => by simp [hnil] at hin)

/-- Every owner scope other than the processed log's is untouched by a scan
step, document for document. -/
theorem sFilter_processLog_other (st : Store) (log : Log)
    (hover : max_size < logSize log) (hmem : log ∈ st.logs)
    (hnd : (st.logs.map (fun l => l.id)).Nodup)
    (hlt : ∀ l ∈ st.logs, l.id < st.nextId)
    (b2 : Nat) (t2 : Option Nat) (hsc : ¬ (b2 = log.build_id ∧ t2 = log.test_id)) (k : Nat) :
    sFilter (processLog st log).logs b2 t2 k = sFilter st.logs b2 t2 k := by
  obtain ⟨as, bs, hsplit, hdec⟩ := processLog_sFilter_decomp st log hover hmem hnd hlt
  rw [hdec b2 t2 k,
      sFilter_shift_other as log.build_id b2 log.test_id t2 log.seq (incOf log) k hsc,
      sFilter_shift_other bs log.build_id b2 log.test_id t2 log.seq (incOf log) k hsc,
      sFilter_newLogs_other log st.nextId b2 t2 k hsc,
      hsplit, sFilter_append, sFilter_cons,
      if_neg (fun hc => hsc ⟨hc.1.symm, hc.2.1.symm⟩)]
  simp

/-- In the processed log's own scope the counts land exactly on
`{1, …, N + inc}` when they started on `{1, …, N}`. -/
theorem countSeq_processLog_main (st : Store) (log : Log)
    (hover : max_size < logSize log) (hmem : log ∈ st.logs)
    (hnd : (st.logs.map (fun l => l.id)).Nodup)
    (hlt : ∀ l ∈ st.logs, l.id < st.nextId) (N : Nat)
    (hN : ∀ j, countSeq st.logs log.build_id log.test_id j
        = if 1 ≤ j ∧ j ≤ N then 1 else 0) (k : Nat) :
    countSeq (processLog st log).logs log.build_id log.test_id k
      = if 1 ≤ k ∧ k ≤ N + incOf log then 1 else 0 := by
  obtain ⟨as, bs, hsplit, hdec⟩ := processLog_sFilter_decomp st log hover hmem hnd hlt
  have hsb : 1 ≤ log.seq ∧ log.seq ≤ N := by
    have hpos := countSeq_pos_of_mem st.logs log hmem
    rw [hN log.seq] at hpos
    by_cases hcond : 1 ≤ log.seq ∧ log.seq ≤ N
    · exact hcond
    · rw [if_neg hcond] at hpos
      omega
  have horig : ∀ j, countSeq st.logs log.build_id log.test_id j
      = countSeq as log.build_id log.test_id j
        + ((if log.seq = j then 1 else 0) + countSeq bs log.build_id log.test_id j) := by
    intro j
    rw [hsplit, countSeq_append, countSeq_cons]
    congr 2
    exact if_congr (by simp) rfl rfl
  have hcnt : countSeq (processLog st log).logs log.build_id log.test_id k
      = countSeq (as.map (shiftLog log.build_id log.test_id log.seq (incOf log)))
          log.build_id log.test_id k
        + countSeq (bs.map (shiftLog log.build_id log.test_id log.seq (incOf log)))
            log.build_id log.test_id k
        + countSeq (newLogs log st.nextId) log.build_id log.test_id k := by
    rw [countSeq, hdec _ _ k]
    simp [countSeq, Nat.add_assoc]
  rcases Nat.lt_or_ge k log.seq with hk | hk
  · have h1 := countSeq_shift_low as log.build_id log.test_id log.seq (incOf log) k (by omega)
    have h2 := countSeq_shift_low bs log.build_id log.test_id log.seq (incOf log) k (by omega)
    have h3 : countSeq (newLogs log st.nextId) log.build_id log.test_id k = 0 := by
      rw [countSeq_newLogs]
      rw [if_neg (by omega)]
    have he := hN k
    rw [horig k, if_neg (by omega)] at he
    rw [hcnt, h1, h2, h3]
    rw [show (if 1 ≤ k ∧ k ≤ N + incOf log then 1 else 0)
        = (if 1 ≤ k ∧ k ≤ N then 1 else 0) from if_congr (by omega) rfl rfl]
    omega
  · rcases Nat.lt_or_ge (log.seq + incOf log) k with hk2 | hk2
    · -- k above the inserted block
      have h1 := countSeq_shift_high as log.build_id log.test_id log.seq (incOf log) k (by omega)
      have h2 := countSeq_shift_high bs log.build_id log.test_id log.seq (incOf log) k (by omega)
      have h3 : countSeq (newLogs log st.nextId) log.build_id log.test_id k = 0 := by
        rw [countSeq_newLogs]
        rw [if_neg (by omega)]
      have he := hN (k - incOf log)
      rw [horig (k - incOf log), if_neg (by omega)] at he
      rw [hcnt, h1, h2, h3]
      rw [show (if 1 ≤ k ∧ k ≤ N + incOf log then 1 else 0)
          = (if 1 ≤ k - incOf log ∧ k - incOf log ≤ N then 1 else 0)
          from if_congr (by omega) rfl rfl]
      omega
    · -- k inside the inserted block
      have h3 : countSeq (newLogs log st.nextId) log.build_id log.test_id k = 1 := by
        rw [countSeq_newLogs]
        rw [if_pos (by omega)]
      rcases Nat.eq_or_lt_of_le hk with hks | hks
      · -- k = log.seq
        have h1 := countSeq_shift_low as log.build_id log.test_id log.seq (incOf log) k (by omega)
        have h2 := countSeq_shift_low bs log.build_id log.test_id log.seq (incOf log) k (by omega)
        have he := hN k
        rw [horig k, if_pos (by omega)] at he
        rw [if_pos (by omega)] at he
        rw [hcnt, h1, h2, h3, if_pos (by omega)]
        omega
      · -- log.seq < k ≤ log.seq + inc
        have h1 := countSeq_shift_mid as log.build_id log.test_id log.seq (incOf log) k
          (by omega) (by omega)
        have h2 := countSeq_shift_mid bs log.build_id log.test_id log.seq (incOf log) k
          (by omega) (by omega)
        rw [hcnt, h1, h2, h3, if_pos (by omega)]

theorem linesAt_processLog_low (st : Store) (log : Log)
    (hover : max_size < logSize log) (hmem : log ∈ st.logs)
    (hnd : (st.logs.map (fun l => l.id)).Nodup)
    (hlt : ∀ l ∈ st.logs, l.id < st.nextId) (k : Nat) (hk : k < log.seq) :
    linesAt (processLog st log).logs log.build_id log.test_id k
      = linesAt st.logs log.build_id log.test_id k := by
  obtain ⟨as, bs, hsplit, hdec⟩ := processLog_sFilter_decomp st log hover hmem hnd hlt
  have hproc : linesAt (processLog st log).logs log.build_id log.test_id k
      = linesAt (as.map (shiftLog log.build_id log.test_id log.seq (incOf log)))
          log.build_id log.test_id k
        ++ linesAt (bs.map (shiftLog log.build_id log.test_id log.seq (incOf log)))
            log.build_id log.test_id k
        ++ linesAt (newLogs log st.nextId) log.build_id log.test_id k := by
    rw [linesAt, hdec _ _ k]
    simp [linesAt]
  have hnls : linesAt (newLogs log st.nextId) log.build_id log.test_id k = [] := by
    refine linesAt_eq_nil_of_count_zero _ _ _ _ ?_
    rw [countSeq_newLogs, if_neg (by omega)]
  rw [hproc, hnls,
      linesAt_shift_low as log.build_id log.test_id log.seq (incOf log) k (by omega),
      linesAt_shift_low bs log.build_id log.test_id log.seq (incOf log) k (by omega),
      hsplit, linesAt_append, linesAt_cons, if_neg (by
        intro hc
        omega)]
  simp

theorem linesAt_processLog_block (st : Store) (log : Log)
    (hover : max_size < logSize log) (hmem : log ∈ st.logs)
    (hnd : (st.logs.map (fun l => l.id)).Nodup)
    (hlt : ∀ l ∈ st.logs, l.id < st.nextId) (N : Nat)
    (hN : ∀ j, countSeq st.logs log.build_id log.test_id j
        = if 1 ≤ j ∧ j ≤ N then 1 else 0)
    (k : Nat) (hk1 : log.seq ≤ k) (hk2 : k ≤ log.seq + incOf log) :
    linesAt (processLog st log).logs log.build_id log.test_id k
      = linesAt (newLogs log st.nextId) log.build_id log.test_id k := by
  obtain ⟨as, bs, hsplit, hdec⟩ := processLog_sFilter_decomp st log hover hmem hnd hlt
  have hproc : linesAt (processLog st log).logs log.build_id log.test_id k
      = linesAt (as.map (shiftLog log.build_id log.test_id log.seq (incOf log)))
          log.build_id log.test_id k
        ++ linesAt (bs.map (shiftLog log.build_id log.test_id log.seq (incOf log)))
            log.build_id log.test_id k
        ++ linesAt (newLogs log st.nextId) log.build_id log.test_id k := by
    rw [linesAt, hdec _ _ k]
    simp [linesAt]
  rcases Nat.eq_or_lt_of_le hk1 with hks | hks
  · -- k = log.seq: the logs formerly before and after the split log hold
    -- nothing at this position, by uniqueness of sequence numbers
    have horig : countSeq as log.build_id log.test_id k
        + ((if log.seq = k then 1 else 0) + countSeq bs log.build_id log.test_id k)
        = countSeq st.logs log.build_id log.test_id k := by
      rw [hsplit, countSeq_append, countSeq_cons]
      congr 2
      exact if_congr (by simp) rfl rfl
    have hsb : 1 ≤ log.seq ∧ log.seq ≤ N := by
      have hpos := countSeq_pos_of_mem st.logs log hmem
      rw [hN log.seq] at hpos
      by_cases hcond : 1 ≤ log.seq ∧ log.seq ≤ N
      · exact hcond
      · rw [if_neg hcond] at hpos
        omega
    rw [hN k, if_pos (by omega), if_pos (show 1 ≤ k ∧ k ≤ N by omega)] at horig
    have has : countSeq as log.build_id log.test_id k = 0 := by omega
    have hbs : countSeq bs log.build_id log.test_id k = 0 := by omega
    rw [hproc,
        linesAt_shift_low as log.build_id log.test_id log.seq (incOf log) k (by omega),
        linesAt_shift_low bs log.build_id log.test_id log.seq (incOf log) k (by omega),
        linesAt_eq_nil_of_count_zero as _ _ _ has,
        linesAt_eq_nil_of_count_zero bs _ _ _ hbs]
    simp
  · rw [hproc,
        linesAt_shift_mid as log.build_id log.test_id log.seq (incOf log) k (by omega) (by omega),
        linesAt_shift_mid bs log.build_id log.test_id log.seq (incOf log) k (by omega) (by omega)]
    simp

theorem linesAt_processLog_high (st : Store) (log : Log)
    (hover : max_size < logSize log) (hmem : log ∈ st.logs)
    (hnd : (st.logs.map (fun l => l.id)).Nodup)
    (hlt : ∀ l ∈ st.logs, l.id < st.nextId) (k : Nat) (hk : log.seq + incOf log < k) :
    linesAt (processLog st log).logs log.build_id log.test_id k
      = linesAt st.logs log.build_id log.test_id (k - incOf log) := by
  obtain ⟨as, bs, hsplit, hdec⟩ := processLog_sFilter_decomp st log hover hmem hnd hlt
  have hproc : linesAt (processLog st log).logs log.build_id log.test_id k
      = linesAt (as.map (shiftLog log.build_id log.test_id log.seq (incOf log)))
          log.build_id log.test_id k
        ++ linesAt (bs.map (shiftLog log.build_id log.test_id log.seq (incOf log)))
            log.build_id log.test_id k
        ++ linesAt (newLogs log st.nextId) log.build_id log.test_id k := by
    rw [linesAt, hdec _ _ k]
    simp [linesAt]
  have hnls : linesAt (newLogs log st.nextId) log.build_id log.test_id k = [] := by
    refine linesAt_eq_nil_of_count_zero _ _ _ _ ?_
    rw [countSeq_newLogs, if_neg (by omega)]
  rw [hproc, hnls,
      linesAt_shift_high as log.build_id log.test_id log.seq (incOf log) k (by omega),
      linesAt_shift_high bs log.build_id log.test_id log.seq (incOf log) k (by omega),
      hsplit, linesAt_append, linesAt_cons, if_neg (by
        intro hc
        omega)]
  simp

theorem range1_append (s m n : Nat) :
    List.range' s m ++ List.range' (s + m) n = List.range' s (m + n) := by
  have h := List.range'_append s m n 1
  rw [Nat.one_mul] at h
  rw [h, Nat.add_comm n m]

/-- Processing one oversized log preserves the seq-ordered concatenation of
its own scope, read against the enlarged counter. -/
theorem scopeLines_processLog_main (st : Store) (log : Log)
    (hover : max_size < logSize log) (hmem : log ∈ st.logs)
    (hnd : (st.logs.map (fun l => l.id)).Nodup)
    (hlt : ∀ l ∈ st.logs, l.id < st.nextId) (N : Nat)
    (hN : ∀ j, countSeq st.logs log.build_id log.test_id j
        = if 1 ≤ j ∧ j ≤ N then 1 else 0) :
    scopeLines (processLog st log).logs log.build_id log.test_id (N + incOf log)
      = scopeLines st.logs log.build_id log.test_id N := by
  have hsb : 1 ≤ log.seq ∧ log.seq ≤ N := by
    have hpos := countSeq_pos_of_mem st.logs log hmem
    rw [hN log.seq] at hpos
    by_cases hcond : 1 ≤ log.seq ∧ log.seq ≤ N
    · exact hcond
    · rw [if_neg hcond] at hpos
      omega
  -- split the target range around the inserted block
  have hsplitNew : List.range' 1 (N + incOf log)
      = List.range' 1 (log.seq - 1)
        ++ (List.range' log.seq (incOf log + 1)
            ++ List.range' (log.seq + incOf log + 1) (N - log.seq)) := by
    have a2 : List.range' log.seq (incOf log + 1)
        ++ List.range' (log.seq + (incOf log + 1)) (N - log.seq)
        = List.range' log.seq ((incOf log + 1) + (N - log.seq)) :=
      range1_append log.seq (incOf log + 1) (N - log.seq)
    have a1 : List.range' 1 (log.seq - 1)
        ++ List.range' (1 + (log.seq - 1)) ((incOf log + 1) + (N - log.seq))
        = List.range' 1 ((log.seq - 1) + ((incOf log + 1) + (N - log.seq))) :=
      range1_append 1 (log.seq - 1) ((incOf log + 1) + (N - log.seq))
    rw [show 1 + (log.seq - 1) = log.seq by omega] at a1
    rw [show log.seq + (incOf log + 1) = log.seq + incOf log + 1 by omega] at a2
    rw [a2, a1]
    congr 1
    omega
  have hsplitOld : List.range' 1 N
      = List.range' 1 (log.seq - 1)
        ++ (List.range' log.seq 1 ++ List.range' (log.seq + 1) (N - log.seq)) := by
    have a2 : List.range' log.seq 1 ++ List.range' (log.seq + 1) (N - log.seq)
        = List.range' log.seq (1 + (N - log.seq)) :=
      range1_append log.seq 1 (N - log.seq)
    have a1 : List.range' 1 (log.seq - 1)
        ++ List.range' (1 + (log.seq - 1)) (1 + (N - log.seq))
        = List.range' 1 ((log.seq - 1) + (1 + (N - log.seq))) :=
      range1_append 1 (log.seq - 1) (1 + (N - log.seq))
    rw [show 1 + (log.seq - 1) = log.seq by omega] at a1
    rw [a2, a1]
    congr 1
    omega
  rw [scopeLines, scopeLines, hsplitNew, hsplitOld]
  rw [List.flatMap_append, List.flatMap_append, List.flatMap_append, List.flatMap_append]
  -- low segment
  have hseg1 : (List.range' 1 (log.seq - 1)).flatMap
      (linesAt (processLog st log).logs log.build_id log.test_id)
      = (List.range' 1 (log.seq - 1)).flatMap (linesAt st.logs log.build_id log.test_id) := by
    refine flatMap_congr_mem _ _ _ ?_
    intro j hj
    have hj2 := List.mem_range'_1.mp hj
    exact linesAt_processLog_low st log hover hmem hnd hlt j (by omega)
  -- middle block: the replacement documents reproduce the split log's lines
  have hblock : (List.range' log.seq (incOf log + 1)).flatMap
      (linesAt (processLog st log).logs log.build_id log.test_id) = log.lines := by
    have h1 : (List.range' log.seq (incOf log + 1)).flatMap
        (linesAt (processLog st log).logs log.build_id log.test_id)
        = (List.range' log.seq (incOf log + 1)).flatMap
          (linesAt (newLogs log st.nextId) log.build_id log.test_id) := by
      refine flatMap_congr_mem _ _ _ ?_
      intro j hj
      have hj2 := List.mem_range'_1.mp hj
      exact linesAt_processLog_block st log hover hmem hnd hlt N hN j (by omega) (by omega)
    have h2 : (List.range' log.seq (newLogs log st.nextId).length).flatMap
        (linesAt (newLogs log st.nextId) log.build_id log.test_id)
        = ((newLogs log st.nextId).map (fun l => l.lines)).flatten := by
      refine flatMap_linesAt_block (newLogs log st.nextId) log.build_id log.test_id log.seq
        ?_ ?_
      · intro l hl
        exact ⟨(newLogs_mem log st.nextId l hl).1, (newLogs_mem log st.nextId l hl).2.1⟩
      · rw [newLogs_map_seq, newLogs_length]
    rw [newLogs_length] at h2
    rw [h1, h2, newLogs_flatten]
  -- middle singleton of the original range: exactly the split log's lines
  have hmid : (List.range' log.seq 1).flatMap (linesAt st.logs log.build_id log.test_id)
      = log.lines := by
    have hcnt : countSeq st.logs log.build_id log.test_id log.seq = 1 := by
      rw [hN log.seq, if_pos (by omega)]
    obtain ⟨as, bs, hsplit⟩ := List.append_of_mem hmem
    have horig : countSeq as log.build_id log.test_id log.seq
        + (1 + countSeq bs log.build_id log.test_id log.seq)
        = countSeq st.logs log.build_id log.test_id log.seq := by
      rw [hsplit, countSeq_append, countSeq_cons]
      congr 2
      rw [if_pos ⟨rfl, rfl, rfl⟩]
    rw [hcnt] at horig
    have hlines : linesAt st.logs log.build_id log.test_id log.seq = log.lines := by
      rw [hsplit, linesAt_append, linesAt_cons, if_pos ⟨rfl, rfl, rfl⟩,
          linesAt_eq_nil_of_count_zero as _ _ _ (by omega),
          linesAt_eq_nil_of_count_zero bs _ _ _ (by omega)]
      simp
    simp [hlines]
  -- high segment, reindexed by the shift
  have hseg3 : (List.range' (log.seq + incOf log + 1) (N - log.seq)).flatMap
      (linesAt (processLog st log).logs log.build_id log.test_id)
      = (List.range' (log.seq + 1) (N - log.seq)).flatMap
        (linesAt st.logs log.build_id log.test_id) := by
    have hre : List.range' (log.seq + incOf log + 1) (N - log.seq)
        = (List.range' (log.seq + 1) (N - log.seq)).map (fun x => incOf log + x) := by
      rw [List.map_add_range']
      congr 1
      omega
    rw [hre, List.flatMap_map]
    refine flatMap_congr_mem _ _ _ ?_
    intro j hj
    have hj2 := List.mem_range'_1.mp hj
    have := linesAt_processLog_high st log hover hmem hnd hlt (incOf log + j) (by omega)
    rw [this]
    congr 1
    omega
  rw [hseg1, hblock, hmid, hseg3]

theorem scopeLines_processLog_other (st : Store) (log : Log)
    (hover : max_size < logSize log) (hmem : log ∈ st.logs)
    (hnd : (st.logs.map (fun l => l.id)).Nodup)
    (hlt : ∀ l ∈ st.logs, l.id < st.nextId)
    (b2 : Nat) (t2 : Option Nat) (hsc : ¬ (b2 = log.build_id ∧ t2 = log.test_id)) (N : Nat) :
    scopeLines (processLog st log).logs b2 t2 N = scopeLines st.logs b2 t2 N := by
  unfold scopeLines
  refine flatMap_congr_mem _ _ _ ?_
  intro k _
  rw [linesAt, linesAt, sFilter_processLog_other st log hover hmem hnd hlt b2 t2 hsc k]

theorem countSeq_processLog_other (st : Store) (log : Log)
    (hover : max_size < logSize log) (hmem : log ∈ st.logs)
    (hnd : (st.logs.map (fun l => l.id)).Nodup)
    (hlt : ∀ l ∈ st.logs, l.id < st.nextId)
    (b2 : Nat) (t2 : Option Nat) (hsc : ¬ (b2 = log.build_id ∧ t2 = log.test_id)) (k : Nat) :
    countSeq (processLog st log).logs b2 t2 k = countSeq st.logs b2 t2 k :=
  congrArg List.length (sFilter_processLog_other st log hover hmem hnd hlt b2 t2 hsc k)

theorem scopeLines_zero (logs : List Log) (b : Nat) (t : Option Nat) :
    scopeLines logs b t 0 = [] := rfl

theorem map_id_map_shift (xs : List Log) (b : Nat) (t : Option Nat) (s inc : Nat) :
    (xs.map (shiftLog b t s inc)).map (fun l => l.id) = xs.map (fun l => l.id) := by
  rw [List.map_map]
  refine List.map_congr_left ?_
  intro x _
  exact shiftLog_id b t s inc x

theorem mem_incTestSeq (i inc : Nat) (ts : List TestDoc) (td2 : TestDoc)
    (h : td2 ∈ incTestSeq i inc ts) :
    ∃ td ∈ ts, td2.id = td.id ∧ td2.build_id = td.build_id := by
  induction ts with
  | nil => simp [incTestSeq] at h
  | cons t ts ih =>
    unfold incTestSeq at h
    by_cases ht : t.id = i
    · rw [if_pos ht] at h
      rcases List.mem_cons.mp h with heq | hmem
      · exact ⟨t, by simp, by rw [heq], by rw [heq]⟩
      · exact ⟨td2, by simp [hmem], rfl, rfl⟩
    · rw [if_neg ht] at h
      rcases List.mem_cons.mp h with heq | hmem
      · exact ⟨t, by simp, by rw [heq], by rw [heq]⟩
      · obtain ⟨td, htd, h1, h2⟩ := ih hmem
        exact ⟨td, by simp [htd], h1, h2⟩

/-- The `_id`s of the logs after one step: survivors keep theirs, replacements
draw fresh ones. -/
theorem processLog_ids_nodup (st : Store) (log : Log)
    (hover : max_size < logSize log)
    (hnd : (st.logs.map (fun l => l.id)).Nodup)
    (hlt : ∀ l ∈ st.logs, l.id < st.nextId) :
    ((processLog st log).logs.map (fun l => l.id)).Nodup := by
  have hsub : (processLog st log).logs.Sublist
      ((st.logs.map (shiftLog log.build_id log.test_id log.seq (incOf log)))
        ++ newLogs log st.nextId) := by
    rw [processLog_logs st log hover]
    exact deleteOneLog_sublist _ _
  have hups : (((st.logs.map (shiftLog log.build_id log.test_id log.seq (incOf log)))
      ++ newLogs log st.nextId).map (fun l => l.id)).Nodup := by
    rw [List.map_append, map_id_map_shift, newLogs_map_id]
    refine List.Nodup.append hnd (List.nodup_range' _ _) ?_
    rw [List.disjoint_left]
    intro a ha hb
    obtain ⟨x, hx, hxa⟩ := List.mem_map.mp ha
    have h1 := hlt x hx
    have h2 := (List.mem_range'_1.mp hb).1
    omega
  exact List.Sublist.nodup (List.Sublist.map _ hsub) hups

theorem processLog_ids_lt (st : Store) (log : Log)
    (hover : max_size < logSize log)
    (hlt : ∀ l ∈ st.logs, l.id < st.nextId) :
    ∀ l ∈ (processLog st log).logs, l.id < (processLog st log).nextId := by
  intro l hl
  rw [processLog_nextId st log hover]
  have hsub : (processLog st log).logs.Sublist
      ((st.logs.map (shiftLog log.build_id log.test_id log.seq (incOf log)))
        ++ newLogs log st.nextId) := by
    rw [processLog_logs st log hover]
    exact deleteOneLog_sublist _ _
  have hl2 := List.Sublist.mem hl hsub
  rcases List.mem_append.mp hl2 with hl3 | hl3
  · obtain ⟨x, hx, hxa⟩ := List.mem_map.mp hl3
    have h1 := hlt x hx
    rw [← hxa, shiftLog_id]
    have : 0 < (newLogs log st.nextId).length := by
      rw [newLogs_length]
      omega
    omega
  · have h1 := (newLogs_mem log st.nextId l hl3).2.2.2.2.1
    rw [newLogs_length]
    rw [incOf_eq] at h1 ⊢
    omega

theorem processLog_coherence (st : Store) (log : Log)
    (hover : max_size < logSize log) (hmem : log ∈ st.logs)
    (hcoh : ∀ l ∈ st.logs, ∀ td ∈ st.tests, l.test_id = some td.id → l.build_id = td.build_id) :
    ∀ l ∈ (processLog st log).logs, ∀ td ∈ (processLog st log).tests,
      l.test_id = some td.id → l.build_id = td.build_id := by
  intro l hl td2 htd2 heq
  have hsub : (processLog st log).logs.Sublist
      ((st.logs.map (shiftLog log.build_id log.test_id log.seq (incOf log)))
        ++ newLogs log st.nextId) := by
    rw [processLog_logs st log hover]
    exact deleteOneLog_sublist _ _
  have htd : ∃ td ∈ st.tests, td2.id = td.id ∧ td2.build_id = td.build_id := by
    rw [processLog_tests st log hover] at htd2
    cases hti : log.test_id with
    | none =>
      rw [hti] at htd2
      exact ⟨td2, htd2, rfl, rfl⟩
    | some tid =>
      rw [hti] at htd2
      exact mem_incTestSeq tid (incOf log) st.tests td2 htd2
  obtain ⟨td, htdm, hid, hbid⟩ := htd
  have hl2 := List.Sublist.mem hl hsub
  rw [hbid]
  rcases List.mem_append.mp hl2 with hl3 | hl3
  · obtain ⟨x, hx, hxa⟩ := List.mem_map.mp hl3
    have h1 : l.test_id = x.test_id := by rw [← hxa, shiftLog_test_id]
    have h2 : l.build_id = x.build_id := by rw [← hxa, shiftLog_build_id]
    rw [h2]
    refine hcoh x hx td htdm ?_
    rw [← h1, heq, hid]
  · have h1 := (newLogs_mem log st.nextId l hl3).1
    have h2 := (newLogs_mem log st.nextId l hl3).2.1
    rw [h1]
    refine hcoh log hmem td htdm ?_
    rw [← h2, heq, hid]

/-- One scan step on an oversized (or compliant) log preserves store sanity,
the owner-scope invariant, and the seq-ordered line concatenation of every
owner scope read against that owner's counter. -/
theorem processLog_step (st : Store) (log : Log) (hmem : log ∈ st.logs)
    (hWF : WF st) (hInv : Inv st) :
    WF (processLog st log) ∧ Inv (processLog st log) ∧
    (∀ i, scopeLines (processLog st log).logs i none (buildSeq (processLog st log) i)
        = scopeLines st.logs i none (buildSeq st i)) ∧
    (∀ i, scopeLines (processLog st log).logs (testBuild (processLog st log) i) (some i)
        (testSeq (processLog st log) i)
        = scopeLines st.logs (testBuild st i) (some i) (testSeq st i)) := by
  by_cases hsz : logSize log ≤ max_size
  · rw [processLog_skip st log hsz]
    exact ⟨hWF, hInv, fun i => rfl, fun i => rfl⟩
  have hover : max_size < logSize log := by omega
  obtain ⟨hnd, hndB, hndT, hlt, hcoh⟩ := hWF
  have hscopeOK_other : ∀ (b2 : Nat) (t2 : Option Nat) (N : Nat),
      ¬ (b2 = log.build_id ∧ t2 = log.test_id) →
      ScopeOK st.logs b2 t2 N → ScopeOK (processLog st log).logs b2 t2 N := by
    intro b2 t2 N hsc h
    rw [scopeOK_iff_count] at h ⊢
    intro k
    rw [countSeq_processLog_other st log hover hmem hnd hlt b2 t2 hsc k]
    exact h k
  have hscopeOK_main : ∀ N : Nat,
      ScopeOK st.logs log.build_id log.test_id N →
      ScopeOK (processLog st log).logs log.build_id log.test_id (N + incOf log) := by
    intro N h
    rw [scopeOK_iff_count] at h ⊢
    exact countSeq_processLog_main st log hover hmem hnd hlt N h
  have hWF2 : WF (processLog st log) := by
    refine ⟨processLog_ids_nodup st log hover hnd hlt, ?_, ?_,
      processLog_ids_lt st log hover hlt, processLog_coherence st log hover hmem hcoh⟩
    · have hb : (processLog st log).builds.map (fun x => x.id)
          = st.builds.map (fun x => x.id) := by
        rw [processLog_builds st log hover]
        cases log.test_id with
        | none => exact incBuildSeq_map_id _ _ _
        | some tid => rfl
      rw [hb]
      exact hndB
    · have ht : (processLog st log).tests.map (fun x => x.id)
          = st.tests.map (fun x => x.id) := by
        rw [processLog_tests st log hover]
        cases log.test_id with
        | none => rfl
        | some tid => exact incTestSeq_map_id _ _ _
      rw [ht]
      exact hndT
  have hInv2 : Inv (processLog st log) := by
    constructor
    · intro bld2 hbld2
      cases hti : log.test_id with
      | some tid =>
        rw [processLog_builds st log hover, hti] at hbld2
        have hb2 : bld2 ∈ st.builds := hbld2
        refine hscopeOK_other bld2.id none bld2.seq ?_ (hInv.1 bld2 hb2)
        intro hc
        rw [hti] at hc
        exact absurd hc.2 (by simp)
      | none =>
        rw [processLog_builds st log hover, hti] at hbld2
        have hb2 : bld2 ∈ incBuildSeq log.build_id (incOf log) st.builds := hbld2
        rw [incBuildSeq_eq_map _ _ _ hndB] at hb2
        obtain ⟨bld, hbldm, hbld2eq⟩ := List.mem_map.mp hb2
        by_cases hid : bld.id = log.build_id
        · rw [if_pos hid] at hbld2eq
          rw [← hbld2eq]
          have h0 := hInv.1 bld hbldm
          rw [hid, ← hti] at h0 ⊢
          exact hscopeOK_main bld.seq h0
        · rw [if_neg hid] at hbld2eq
          rw [← hbld2eq]
          exact hscopeOK_other bld.id none bld.seq (fun hc => hid hc.1) (hInv.1 bld hbldm)
    · intro td2 htd2
      cases hti : log.test_id with
      | none =>
        rw [processLog_tests st log hover, hti] at htd2
        have ht2 : td2 ∈ st.tests := htd2
        refine hscopeOK_other td2.build_id (some td2.id) td2.seq ?_ (hInv.2 td2 ht2)
        intro hc
        rw [hti] at hc
        exact absurd hc.2 (by simp)
      | some tid =>
        rw [processLog_tests st log hover, hti] at htd2
        have ht2 : td2 ∈ incTestSeq tid (incOf log) st.tests := htd2
        rw [incTestSeq_eq_map _ _ _ hndT] at ht2
        obtain ⟨td, htdm, htd2eq⟩ := List.mem_map.mp ht2
        by_cases hid : td.id = tid
        · rw [if_pos hid] at htd2eq
          rw [← htd2eq]
          have hcb : log.build_id = td.build_id := by
            refine hcoh log hmem td htdm ?_
            rw [hti, hid]
          have h0 := hInv.2 td htdm
          rw [← hcb, hid, ← hti] at h0 ⊢
          exact hscopeOK_main td.seq h0
        · rw [if_neg hid] at htd2eq
          rw [← htd2eq]
          refine hscopeOK_other td.build_id (some td.id) td.seq ?_ (hInv.2 td htdm)
          intro hc
          rw [hti] at hc
          have hcc := hc.2
          simp at hcc
          exact hid hcc
  refine ⟨hWF2, hInv2, ?_, ?_⟩
  · -- build scopes
    intro i
    cases hti : log.test_id with
    | some tid =>
      have hb : (processLog st log).builds = st.builds := by
        rw [processLog_builds st log hover, hti]
      have hbs : buildSeq (processLog st log) i = buildSeq st i := by
        unfold buildSeq
        rw [hb]
      rw [hbs]
      refine scopeLines_processLog_other st log hover hmem hnd hlt i none ?_ _
      intro hc
      rw [hti] at hc
      exact absurd hc.2 (by simp)
    | none =>
      have hb : (processLog st log).builds = incBuildSeq log.build_id (incOf log) st.builds := by
        rw [processLog_builds st log hover, hti]
      by_cases hib : i = log.build_id
      · cases hfind : st.builds.find? (fun x => x.id = i) with
        | none =>
          have hfind2 : st.builds.find? (fun x => x.id = log.build_id) = none := by
            rw [← hib]
            exact hfind
          have hnop : incBuildSeq log.build_id (incOf log) st.builds = st.builds :=
            buildSeqL_incBuildSeq_none log.build_id (incOf log) st.builds hfind2
          have hbs : buildSeq (processLog st log) i = 0 := by
            unfold buildSeq
            rw [hb, hnop]
            unfold buildSeqL
            rw [hfind]
          have hbs2 : buildSeq st i = 0 := by
            unfold buildSeq buildSeqL
            rw [hfind]
          rw [hbs, hbs2, scopeLines_zero, scopeLines_zero]
        | some bld =>
          have hmemB : bld ∈ st.builds := List.mem_of_find?_eq_some hfind
          have hidB : bld.id = i := by simpa using List.find?_some hfind
          have hfind2 : st.builds.find? (fun x => x.id = log.build_id) = some bld := by
            rw [← hib]
            exact hfind
          have hbs : buildSeq (processLog st log) i = bld.seq + incOf log := by
            unfold buildSeq
            rw [hb, hib]
            exact buildSeqL_incBuildSeq_same log.build_id (incOf log) st.builds bld hfind2
          have hbs2 : buildSeq st i = bld.seq := by
            unfold buildSeq buildSeqL
            rw [hfind]
          rw [hbs, hbs2, hib]
          have h0 := (scopeOK_iff_count _ _ _ _).mp (hInv.1 bld hmemB)
          rw [hidB, hib] at h0
          rw [← hti] at h0 ⊢
          exact scopeLines_processLog_main st log hover hmem hnd hlt bld.seq h0
      · have hbs : buildSeq (processLog st log) i = buildSeq st i := by
          unfold buildSeq
          rw [hb]
          exact buildSeqL_incBuildSeq_ne log.build_id i (incOf log) st.builds hib
        rw [hbs]
        exact scopeLines_processLog_other st log hover hmem hnd hlt i none
          (fun hc => hib hc.1) _
  · -- test scopes
    intro i
    cases hti : log.test_id with
    | none =>
      have ht : (processLog st log).tests = st.tests := by
        rw [processLog_tests st log hover, hti]
      have hts : testSeq (processLog st log) i = testSeq st i := by
        unfold testSeq
        rw [ht]
      have htb : testBuild (processLog st log) i = testBuild st i := by
        unfold testBuild
        rw [ht]
      rw [hts, htb]
      refine scopeLines_processLog_other st log hover hmem hnd hlt _ (some i) ?_ _
      intro hc
      rw [hti] at hc
      exact absurd hc.2 (by simp)
    | some tid =>
      have ht : (processLog st log).tests = incTestSeq tid (incOf log) st.tests := by
        rw [processLog_tests st log hover, hti]
      have htb : testBuild (processLog st log) i = testBuild st i := by
        unfold testBuild
        rw [ht]
        exact testBuildL_incTestSeq tid i (incOf log) st.tests
      by_cases hit : i = tid
      · cases hfind : st.tests.find? (fun x => x.id = i) with
        | none =>
          have hfind2 : st.tests.find? (fun x => x.id = tid) = none := by
            rw [← hit]
            exact hfind
          have hnop : incTestSeq tid (incOf log) st.tests = st.tests :=
            testSeqL_incTestSeq_none tid (incOf log) st.tests hfind2
          have hts : testSeq (processLog st log) i = 0 := by
            unfold testSeq
            rw [ht, hnop]
            unfold testSeqL
            rw [hfind]
          have hts2 : testSeq st i = 0 := by
            unfold testSeq testSeqL
            rw [hfind]
          rw [hts, hts2, scopeLines_zero, scopeLines_zero]
        | some td =>
          have hmemT : td ∈ st.tests := List.mem_of_find?_eq_some hfind
          have hidT : td.id = i := by simpa using List.find?_some hfind
          have hfind2 : st.tests.find? (fun x => x.id = tid) = some td := by
            rw [← hit]
            exact hfind
          have hts : testSeq (processLog st log) i = td.seq + incOf log := by
            unfold testSeq
            rw [ht, hit]
            exact testSeqL_incTestSeq_same tid (incOf log) st.tests td hfind2
          have hts2 : testSeq st i = td.seq := by
            unfold testSeq testSeqL
            rw [hfind]
          have htb2 : testBuild st i = td.build_id := by
            unfold testBuild testBuildL
            rw [hfind]
          have hcb : log.build_id = td.build_id := by
            refine hcoh log hmem td hmemT ?_
            rw [hti, hidT, hit]
          rw [hts, hts2, htb, htb2, hit]
          have h0 := (scopeOK_iff_count _ _ _ _).mp (hInv.2 td hmemT)
          rw [hidT, hit] at h0
          rw [← hcb] at h0 ⊢
          rw [← hti] at h0 ⊢
          exact scopeLines_processLog_main st log hover hmem hnd hlt td.seq h0
      · have hts : testSeq (processLog st log) i = testSeq st i := by
          unfold testSeq
          rw [ht]
          exact testSeqL_incTestSeq_ne tid i (incOf log) st.tests hit
        rw [hts, htb]
        refine scopeLines_processLog_other st log hover hmem hnd hlt _ (some i) ?_ _
        intro hc
        rw [hti] at hc
        have hcc := hc.2
        simp at hcc
        exact hit hcc

/-! ### The scan loop -/

theorem visitLog_eq_some (st : Store) (i : Nat) (log : Log)
    (h : st.logs.find? (fun l => l.id = i) = some log) :
    visitLog st i = processLog st log := by
  unfold visitLog
  rw [h]

theorem visitLog_eq_none (st : Store) (i : Nat)
    (h : st.logs.find? (fun l => l.id = i) = none) :
    visitLog st i = st := by
  unfold visitLog
  rw [h]

theorem visitLog_step (st : Store) (i : Nat) (hWF : WF st) (hInv : Inv st) :
    WF (visitLog st i) ∧ Inv (visitLog st i) ∧
    (∀ j, scopeLines (visitLog st i).logs j none (buildSeq (visitLog st i) j)
        = scopeLines st.logs j none (buildSeq st j)) ∧
    (∀ j, scopeLines (visitLog st i).logs (testBuild (visitLog st i) j) (some j)
        (testSeq (visitLog st i) j)
        = scopeLines st.logs (testBuild st j) (some j) (testSeq st j)) := by
  unfold visitLog
  cases hf : st.logs.find? (fun l => l.id = i) with
  | none => exact ⟨hWF, hInv, fun j => rfl, fun j => rfl⟩
  | some log => exact processLog_step st log (List.mem_of_find?_eq_some hf) hWF hInv

theorem foldl_visit_good (ids : List Nat) : ∀ st : Store, WF st → Inv st →
    WF (ids.foldl visitLog st) ∧ Inv (ids.foldl visitLog st) ∧
    (∀ j, scopeLines (ids.foldl visitLog st).logs j none
        (buildSeq (ids.foldl visitLog st) j) = scopeLines st.logs j none (buildSeq st j)) ∧
    (∀ j, scopeLines (ids.foldl visitLog st).logs
        (testBuild (ids.foldl visitLog st) j) (some j) (testSeq (ids.foldl visitLog st) j)
        = scopeLines st.logs (testBuild st j) (some j) (testSeq st j)) := by
  induction ids with
  | nil => exact fun st h1 h2 => ⟨h1, h2, fun j => rfl, fun j => rfl⟩
  | cons x xs ih =>
    intro st h1 h2
    obtain ⟨w1, w2, w3, w4⟩ := visitLog_step st x h1 h2
    obtain ⟨g1, g2, g3, g4⟩ := ih (visitLog st x) w1 w2
    rw [List.foldl_cons]
    exact ⟨g1, g2, fun j => (g3 j).trans (w3 j), fun j => (g4 j).trans (w4 j)⟩

/-- The migration preserves store sanity, the owner-scope invariant and the
per-scope line concatenations. -/
theorem break_up_good (st : Store) (hWF : WF st) (hInv : Inv st) :
    WF (break_up_large_documents st) ∧ Inv (break_up_large_documents st) ∧
    (∀ j, scopeLines (break_up_large_documents st).logs j none
        (buildSeq (break_up_large_documents st) j)
        = scopeLines st.logs j none (buildSeq st j)) ∧
    (∀ j, scopeLines (break_up_large_documents st).logs
        (testBuild (break_up_large_documents st) j) (some j)
        (testSeq (break_up_large_documents st) j)
        = scopeLines st.logs (testBuild st j) (some j) (testSeq st j)) := by
  unfold break_up_large_documents
  exact foldl_visit_good (scanIds st) st hWF hInv

/-- A store whose logs are all within bounds is left exactly as it is. -/
theorem break_up_noop (st : Store) (h : ∀ l ∈ st.logs, logSize l ≤ max_size) :
    break_up_large_documents st = st := by
  unfold break_up_large_documents
  suffices h2 : ∀ ids : List Nat, ids.foldl visitLog st = st from h2 _
  intro ids
  induction ids with
  | nil => rfl
  | cons x xs ih =>
    have hv : visitLog st x = st := by
      unfold visitLog
      cases hf : st.logs.find? (fun l => l.id = x) with
      | none => rfl
      | some log => exact processLog_skip st log (h log (List.mem_of_find?_eq_some hf))
    rw [List.foldl_cons, hv, ih]

/-- Logs present after the run but not before carry a fresh id at or above the
initial `nextId`: the documents inserted during the scan are exactly those
allocated from the initial id counter onwards. -/
theorem break_up_fresh_ids (st : Store) :
    ∀ l ∈ (break_up_large_documents st).logs,
      (∀ l0 ∈ st.logs, l0.id ≠ l.id) → st.nextId ≤ l.id := by
  have hJ : st.nextId ≤ (break_up_large_documents st).nextId ∧
      ∀ l ∈ (break_up_large_documents st).logs,
        (∃ l0 ∈ st.logs, l0.id = l.id) ∨ st.nextId ≤ l.id := by
    unfold break_up_large_documents
    refine foldl_inv visitLog
      (fun s => st.nextId ≤ s.nextId ∧
        ∀ l ∈ s.logs, (∃ l0 ∈ st.logs, l0.id = l.id) ∨ st.nextId ≤ l.id)
      ?_ (scanIds st) st ⟨Nat.le_refl _, fun l hl => Or.inl ⟨l, hl, rfl⟩⟩
    intro s i ⟨h1, h2⟩
    cases hf : s.logs.find? (fun l => l.id = i) with
    | none =>
      rw [visitLog_eq_none s i hf]
      exact ⟨h1, h2⟩
    | some log =>
      rw [visitLog_eq_some s i log hf]
      by_cases hsz : logSize log ≤ max_size
      · rw [processLog_skip s log hsz]
        exact ⟨h1, h2⟩
      · have hover : max_size < logSize log := by omega
        constructor
        · rw [processLog_nextId s log hover]
          omega
        · intro l hl
          have hsub : (processLog s log).logs.Sublist
              ((s.logs.map (shiftLog log.build_id log.test_id log.seq (incOf log)))
                ++ newLogs log s.nextId) := by
            rw [processLog_logs s log hover]
            exact deleteOneLog_sublist _ _
          rcases List.mem_append.mp (List.Sublist.mem hl hsub) with hl2 | hl2
          · obtain ⟨x, hx, hxa⟩ := List.mem_map.mp hl2
            have hxi : l.id = x.id := by rw [← hxa, shiftLog_id]
            rcases h2 x hx with hc | hc
            · obtain ⟨l0, hl0, hl0e⟩ := hc
              exact Or.inl ⟨l0, hl0, by rw [hl0e, hxi]⟩
            · exact Or.inr (by omega)
          · have := (newLogs_mem log s.nextId l hl2).2.2.2.1
            exact Or.inr (by omega)
  intro l hl hnone
  rcases hJ.2 l hl with hc | hc
  · obtain ⟨l0, hl0, hl0e⟩ := hc
    exact absurd hl0e (hnone l0 hl0)
  · exact hc

/-! ### Fixtures -/

/-- 3 MB, the line size used by the self-test fixture. -/
def mb3 : Nat := 3 * 1024 * 1024

/-- The store built by `test()`: Scenario A (build-scoped logs of the global
build 100) and Scenario B (logs of build 101 owned by test 200), with line
payloads abbreviated to their length and leading character. -/
def fixtureStore : Store :=
  { builds := [⟨100, 3⟩, ⟨101, 0⟩],
    tests := [⟨200, 101, 3⟩],
    logs :=
      [ ⟨1, 100, none, 1, 10, [⟨0, mb3, 1⟩]⟩,
        ⟨2, 100, none, 2, 20, [⟨0, mb3, 2⟩, ⟨0, mb3, 3⟩]⟩,
        ⟨3, 100, none, 3, 30, [⟨0, mb3, 4⟩]⟩,
        ⟨4, 101, some 200, 1, 10, [⟨0, mb3, 1⟩]⟩,
        ⟨5, 101, some 200, 2, 20, [⟨0, mb3, 2⟩, ⟨0, mb3, 3⟩]⟩,
        ⟨6, 101, some 200, 3, 30, [⟨0, mb3, 4⟩]⟩ ],
    nextId := 7 }

/-- A store holding a single log whose single line exceeds `max_size`. -/
def hugeStore : Store :=
  { builds := [⟨100, 1⟩], tests := [],
    logs := [⟨1, 100, none, 1, 0, [⟨0, max_size + 1, 7⟩]⟩], nextId := 2 }

/-- The scope's logs in ascending `seq` order, as the self-test reads them. -/
def sortBySeq (logs : List Log) : List Log :=
  logs.insertionSort (fun a b => a.seq ≤ b.seq)

/-! ### The claims -/

/-- Claim C1, counterexample: the loop opens a new chunk whenever
`new_log_size + len(line) > max_size`, with no check that the current chunk
holds a line; a chunk with a single line above `max_size` is therefore split
into two chunks (an empty one plus the line), not returned as a single
unchanged chunk. -/
theorem c1_counterexample :
    (splitChunks 1 [⟨0, max_size + 1, 7⟩]).length = 2 ∧
    splitChunks 1 [⟨0, max_size + 1, 7⟩] ≠ [(1, [⟨0, max_size + 1, 7⟩])] := by
  decide

/-- Claim C1, amended: a new replacement chunk is opened whenever the running
size plus the next line's size exceeds `max_size`, regardless of whether the
accumulator already holds a line; consequently a one-line oversized chunk is
split into `m = 2` chunks, an empty chunk keeping `seq = s` and a one-line
chunk at `seq = s + 1`, and a zero-line chunk is never classified oversized
(so it is left untouched). -/
theorem c1_amended :
    (∀ (s : Nat) (l : Line), max_size < l.size →
      splitChunks s [l] = [(s, []), (s + 1, [l])]) ∧
    (∀ (st : Store) (log : Log), log.lines = [] → processLog st log = st) := by
  constructor
  · intro s l h
    rw [splitChunks_eq]
    have hfold : List.foldl splitStep ⟨s, [], 0, []⟩ [l] = splitStep ⟨s, [], 0, []⟩ l := rfl
    rw [hfold, splitStep_pos _ l (by simpa using h)]
    simp
  · intro st log h
    refine processLog_skip st log ?_
    rw [logSize_eq_sumSize, h]
    simp [sumSize]

/-- Witness for the amended C1 at a concrete over-large line. -/
theorem c1_amended_witness :
    splitChunks 1 [⟨0, max_size + 1, 7⟩] = [(1, []), (2, [⟨0, max_size + 1, 7⟩])] :=
  c1_amended.1 1 ⟨0, max_size + 1, 7⟩ (by decide)

/-- Claim C2: assuming every owner's counter matches its scope (`seq` values
exactly `{1, …, N}`) before migration, the same holds after, and every owner's
counter equals the number of persisted chunks in its scope. -/
theorem c2_seq_invariant_preserved (st : Store) (hWF : WF st) (hInv : Inv st) :
    Inv (break_up_large_documents st) ∧
    (∀ bld ∈ (break_up_large_documents st).builds,
      (scopeFilter (break_up_large_documents st).logs bld.id none).length = bld.seq) ∧
    (∀ td ∈ (break_up_large_documents st).tests,
      (scopeFilter (break_up_large_documents st).logs td.build_id (some td.id)).length
        = td.seq) := by
  obtain ⟨_, hInv2, _, _⟩ := break_up_good st hWF hInv
  refine ⟨hInv2, ?_, ?_⟩
  · intro bld hbld
    exact scopeOK_length _ _ _ _ (hInv2.1 bld hbld)
  · intro td htd
    exact scopeOK_length _ _ _ _ (hInv2.2 td htd)

/-- Witness for C2 on the self-test fixture. -/
theorem c2_seq_invariant_preserved_witness :
    Inv (break_up_large_documents fixtureStore) ∧
    (∀ bld ∈ (break_up_large_documents fixtureStore).builds,
      (scopeFilter (break_up_large_documents fixtureStore).logs bld.id none).length
        = bld.seq) ∧
    (∀ td ∈ (break_up_large_documents fixtureStore).tests,
      (scopeFilter (break_up_large_documents fixtureStore).logs td.build_id
        (some td.id)).length = td.seq) :=
  c2_seq_invariant_preserved fixtureStore (by decide) (by decide)

/-- Claim C3: every replacement chunk produced for an oversized log fits in
`max_size`, except a chunk holding exactly one line that itself exceeds
`max_size`. -/
theorem c3_size_bound (log : Log) (hover : max_size < logSize log) (n : Nat) :
    ∀ nl ∈ newLogs log n,
      logSize nl ≤ max_size ∨ ∃ line, nl.lines = [line] ∧ max_size < line.size := by
  intro nl hnl
  have hm := (newLogs_mem log n nl hnl).2.2.2.2.2
  have hs := splitChunks_sizeOK log.seq log.lines (nl.seq, nl.lines) hm
  unfold sizeOK at hs
  rcases hs with hs | ⟨l, hl1, hl2⟩
  · left
    rw [logSize_eq_sumSize]
    exact hs
  · right
    exact ⟨l, hl1, hl2⟩

/-- Witness for C3: the first replacement chunk of the fixture's oversized
two-line log fits in the bound (or is an irreducible single line). -/
theorem c3_size_bound_witness :
    logSize ⟨7, 100, none, 2, 20, [⟨0, mb3, 2⟩]⟩ ≤ max_size ∨
      ∃ line, (⟨7, 100, none, 2, 20, [⟨0, mb3, 2⟩]⟩ : Log).lines = [line] ∧
        max_size < line.size :=
  c3_size_bound ⟨2, 100, none, 2, 20, [⟨0, mb3, 2⟩, ⟨0, mb3, 3⟩]⟩ (by decide) 7
    ⟨7, 100, none, 2, 20, [⟨0, mb3, 2⟩]⟩ (by decide)

/-- Claim C4: the replacement chunks of a split log concatenate, in `seq`
order, to exactly the original line list; consequently the seq-ordered
concatenation of every owner scope, read against that owner's counter, is the
same after the migration as before. -/
theorem c4_line_order_preserved (st : Store) (hWF : WF st) (hInv : Inv st) :
    (∀ (log : Log) (n : Nat),
      ((newLogs log n).map (fun l => l.lines)).flatten = log.lines) ∧
    (∀ i, scopeLines (break_up_large_documents st).logs i none
        (buildSeq (break_up_large_documents st) i)
        = scopeLines st.logs i none (buildSeq st i)) ∧
    (∀ i, scopeLines (break_up_large_documents st).logs
        (testBuild (break_up_large_documents st) i) (some i)
        (testSeq (break_up_large_documents st) i)
        = scopeLines st.logs (testBuild st i) (some i) (testSeq st i)) := by
  obtain ⟨_, _, h3, h4⟩ := break_up_good st hWF hInv
  exact ⟨fun log n => newLogs_flatten log n, h3, h4⟩

/-- Witness for C4 on the self-test fixture. -/
theorem c4_line_order_preserved_witness :
    (∀ (log : Log) (n : Nat),
      ((newLogs log n).map (fun l => l.lines)).flatten = log.lines) ∧
    (∀ i, scopeLines (break_up_large_documents fixtureStore).logs i none
        (buildSeq (break_up_large_documents fixtureStore) i)
        = scopeLines fixtureStore.logs i none (buildSeq fixtureStore i)) ∧
    (∀ i, scopeLines (break_up_large_documents fixtureStore).logs
        (testBuild (break_up_large_documents fixtureStore) i) (some i)
        (testSeq (break_up_large_documents fixtureStore) i)
        = scopeLines fixtureStore.logs (testBuild fixtureStore i) (some i)
          (testSeq fixtureStore i)) :=
  c4_line_order_preserved fixtureStore (by decide) (by decide)

/-- Claim C5: splitting an oversized log with `seq = s` into `m` replacements
sets `inc = m - 1`, shifts every other chunk of the same owner scope with
`seq > s` up by exactly `inc`, leaves chunks with `seq ≤ s` untouched, and
adds `inc` to the owning test's counter when a `test_id` is present (builds
untouched), otherwise to the owning build's counter (tests untouched); all
other owners keep their counters. -/
theorem c5_renumbering (st : Store) (log : Log) (hmem : log ∈ st.logs)
    (hover : max_size < logSize log) :
    incOf log = (splitChunks log.seq log.lines).length - 1 ∧
    (∀ l ∈ st.logs, l.id ≠ log.id → l.build_id = log.build_id → l.test_id = log.test_id →
      (log.seq < l.seq →
        { l with seq := l.seq + incOf log } ∈ (processLog st log).logs) ∧
      (l.seq ≤ log.seq → l ∈ (processLog st log).logs)) ∧
    (∀ tid, log.test_id = some tid →
      (processLog st log).builds = st.builds ∧
      ((st.tests.find? (fun x => x.id = tid)).isSome →
        testSeq (processLog st log) tid = testSeq st tid + incOf log) ∧
      (∀ j, j ≠ tid → testSeq (processLog st log) j = testSeq st j)) ∧
    (log.test_id = none →
      (processLog st log).tests = st.tests ∧
      ((st.builds.find? (fun x => x.id = log.build_id)).isSome →
        buildSeq (processLog st log) log.build_id
          = buildSeq st log.build_id + incOf log) ∧
      (∀ j, j ≠ log.build_id → buildSeq (processLog st log) j = buildSeq st j)) := by
  refine ⟨by have := incOf_eq log; omega, ?_, ?_, ?_⟩
  · intro l hl hne hb ht
    constructor
    · intro hgt
      have himg : shiftLog log.build_id log.test_id log.seq (incOf log) l
          = { l with seq := l.seq + incOf log } :=
        shiftLog_pos _ _ _ _ _ ⟨hb, ht, hgt⟩
      have h1 : { l with seq := l.seq + incOf log }
          ∈ st.logs.map (shiftLog log.build_id log.test_id log.seq (incOf log)) := by
        rw [← himg]
        exact List.mem_map_of_mem _ hl
      rw [processLog_logs st log hover]
      exact mem_deleteOneLog log.id _ _ (List.mem_append_left _ h1) hne
    · intro hle
      have himg : shiftLog log.build_id log.test_id log.seq (incOf log) l = l :=
        shiftLog_neg _ _ _ _ _ (fun hc => by omega)
      have h1 : l ∈ st.logs.map (shiftLog log.build_id log.test_id log.seq (incOf log)) := by
        rw [← himg]
        exact List.mem_map_of_mem _ hl
      rw [processLog_logs st log hover]
      exact mem_deleteOneLog log.id _ _ (List.mem_append_left _ h1) hne
  · intro tid hti
    refine ⟨by rw [processLog_builds st log hover, hti], ?_, ?_⟩
    · intro hsome
      obtain ⟨td, htd⟩ := Option.isSome_iff_exists.mp hsome
      have e1 : testSeq st tid = td.seq := by
        unfold testSeq testSeqL
        rw [htd]
      have e2 : testSeq (processLog st log) tid = td.seq + incOf log := by
        unfold testSeq
        rw [processLog_tests st log hover, hti]
        exact testSeqL_incTestSeq_same tid (incOf log) st.tests td htd
      rw [e1, e2]
    · intro j hj
      unfold testSeq
      rw [processLog_tests st log hover, hti]
      exact testSeqL_incTestSeq_ne tid j (incOf log) st.tests hj
  · intro hti
    refine ⟨by rw [processLog_tests st log hover, hti], ?_, ?_⟩
    · intro hsome
      obtain ⟨bld, hbld⟩ := Option.isSome_iff_exists.mp hsome
      have e1 : buildSeq st log.build_id = bld.seq := by
        unfold buildSeq buildSeqL
        rw [hbld]
      have e2 : buildSeq (processLog st log) log.build_id = bld.seq + incOf log := by
        unfold buildSeq
        rw [processLog_builds st log hover, hti]
        exact buildSeqL_incBuildSeq_same log.build_id (incOf log) st.builds bld hbld
      rw [e1, e2]
    · intro j hj
      unfold buildSeq
      rw [processLog_builds st log hover, hti]
      exact buildSeqL_incBuildSeq_ne log.build_id j (incOf log) st.builds hj

/-- Witness for C5 on the fixture's oversized build-scoped log. -/
theorem c5_renumbering_witness :
    incOf (⟨2, 100, none, 2, 20, [⟨0, mb3, 2⟩, ⟨0, mb3, 3⟩]⟩ : Log)
      = (splitChunks 2 [⟨0, mb3, 2⟩, ⟨0, mb3, 3⟩]).length - 1 ∧
    (∀ l ∈ fixtureStore.logs, l.id ≠ 2 → l.build_id = 100 → l.test_id = none →
      (2 < l.seq →
        { l with seq := l.seq + incOf ⟨2, 100, none, 2, 20, [⟨0, mb3, 2⟩, ⟨0, mb3, 3⟩]⟩ }
          ∈ (processLog fixtureStore ⟨2, 100, none, 2, 20, [⟨0, mb3, 2⟩, ⟨0, mb3, 3⟩]⟩).logs) ∧
      (l.seq ≤ 2 →
        l ∈ (processLog fixtureStore ⟨2, 100, none, 2, 20, [⟨0, mb3, 2⟩, ⟨0, mb3, 3⟩]⟩).logs)) ∧
    (∀ tid, (none : Option Nat) = some tid →
      (processLog fixtureStore ⟨2, 100, none, 2, 20, [⟨0, mb3, 2⟩, ⟨0, mb3, 3⟩]⟩).builds
        = fixtureStore.builds ∧
      ((fixtureStore.tests.find? (fun x => x.id = tid)).isSome →
        testSeq (processLog fixtureStore ⟨2, 100, none, 2, 20, [⟨0, mb3, 2⟩, ⟨0, mb3, 3⟩]⟩) tid
          = testSeq fixtureStore tid
            + incOf ⟨2, 100, none, 2, 20, [⟨0, mb3, 2⟩, ⟨0, mb3, 3⟩]⟩) ∧
      (∀ j, j ≠ tid →
        testSeq (processLog fixtureStore ⟨2, 100, none, 2, 20, [⟨0, mb3, 2⟩, ⟨0, mb3, 3⟩]⟩) j
          = testSeq fixtureStore j)) ∧
    ((none : Option Nat) = none →
      (processLog fixtureStore ⟨2, 100, none, 2, 20, [⟨0, mb3, 2⟩, ⟨0, mb3, 3⟩]⟩).tests
        = fixtureStore.tests ∧
      ((fixtureStore.builds.find? (fun x => x.id = 100)).isSome →
        buildSeq (processLog fixtureStore ⟨2, 100, none, 2, 20, [⟨0, mb3, 2⟩, ⟨0, mb3, 3⟩]⟩) 100
          = buildSeq fixtureStore 100
            + incOf ⟨2, 100, none, 2, 20, [⟨0, mb3, 2⟩, ⟨0, mb3, 3⟩]⟩) ∧
      (∀ j, j ≠ 100 →
        buildSeq (processLog fixtureStore ⟨2, 100, none, 2, 20, [⟨0, mb3, 2⟩, ⟨0, mb3, 3⟩]⟩) j
          = buildSeq fixtureStore j)) :=
  c5_renumbering fixtureStore ⟨2, 100, none, 2, 20, [⟨0, mb3, 2⟩, ⟨0, mb3, 3⟩]⟩
    (by decide) (by decide)

/-- Claim C6: on the Scenario A fixture the migration yields four single-line
3 MB chunks "1".."4" with `seq = 1..4`, `started` values `d1, d2, d2, d3`, and
build counter 4; on the Scenario B layout the test counter goes from 3 to 4
while the build counter stays 0. -/
theorem c6_scenarios :
    buildSeq fixtureStore 100 = 3 ∧
    buildSeq (break_up_large_documents fixtureStore) 100 = 4 ∧
    buildSeq fixtureStore 101 = 0 ∧
    buildSeq (break_up_large_documents fixtureStore) 101 = 0 ∧
    testSeq fixtureStore 200 = 3 ∧
    testSeq (break_up_large_documents fixtureStore) 200 = 4 ∧
    sortBySeq (scopeFilter (break_up_large_documents fixtureStore).logs 100 none)
      = [⟨1, 100, none, 1, 10, [⟨0, mb3, 1⟩]⟩,
         ⟨7, 100, none, 2, 20, [⟨0, mb3, 2⟩]⟩,
         ⟨8, 100, none, 3, 20, [⟨0, mb3, 3⟩]⟩,
         ⟨3, 100, none, 4, 30, [⟨0, mb3, 4⟩]⟩] ∧
    sortBySeq (scopeFilter (break_up_large_documents fixtureStore).logs 101 (some 200))
      = [⟨4, 101, some 200, 1, 10, [⟨0, mb3, 1⟩]⟩,
         ⟨9, 101, some 200, 2, 20, [⟨0, mb3, 2⟩]⟩,
         ⟨10, 101, some 200, 3, 20, [⟨0, mb3, 3⟩]⟩,
         ⟨6, 101, some 200, 4, 30, [⟨0, mb3, 4⟩]⟩] := by
  decide

/-- Claim C7: a scan step on a log whose aggregate size is within `max_size`
changes nothing: no log, no sibling, no owner counter. -/
theorem c7_noop_on_compliant (st : Store) (log : Log) (h : logSize log ≤ max_size) :
    processLog st log = st :=
  processLog_skip st log h

/-- Witness for C7 on a compliant fixture log. -/
theorem c7_noop_on_compliant_witness :
    processLog fixtureStore ⟨1, 100, none, 1, 10, [⟨0, mb3, 1⟩]⟩ = fixtureStore :=
  c7_noop_on_compliant fixtureStore ⟨1, 100, none, 1, 10, [⟨0, mb3, 1⟩]⟩ (by decide)

/-- Claim C8, counterexample: a chunk holding a single line above `max_size`
is split again on every run (into an empty chunk plus the line), so running
the migration twice does not equal running it once. -/
theorem c8_counterexample :
    break_up_large_documents (break_up_large_documents hugeStore)
      ≠ break_up_large_documents hugeStore := by
  decide

/-- Claim C8, amended: the migration is idempotent on any store whose first
run leaves every chunk within `max_size` (equivalently, in the absence of
single lines above `max_size`); a second run is then the identity. -/
theorem c8_amended (st : Store)
    (h : ∀ l ∈ (break_up_large_documents st).logs, logSize l ≤ max_size) :
    break_up_large_documents (break_up_large_documents st)
      = break_up_large_documents st :=
  break_up_noop _ h

/-- Witness for the amended C8 on the self-test fixture. -/
theorem c8_amended_witness :
    break_up_large_documents (break_up_large_documents fixtureStore)
      = break_up_large_documents fixtureStore :=
  c8_amended fixtureStore (by decide)

/-- Claim C9: the scan list is the ascending, duplicate-free enumeration of
exactly the `_id`s present when the scan starts; every id it visits predates
`nextId`, while every chunk inserted as a replacement during the run carries
an id at or above `nextId` and hence is never itself visited in the pass. -/
theorem c9_scan_order (st : Store) (hWF : WF st) :
    List.Perm (scanIds st) (st.logs.map (fun l => l.id)) ∧
    List.Sorted (· ≤ ·) (scanIds st) ∧
    (scanIds st).Nodup ∧
    (∀ i ∈ scanIds st, i < st.nextId) ∧
    (∀ l ∈ (break_up_large_documents st).logs,
      (∀ l0 ∈ st.logs, l0.id ≠ l.id) → st.nextId ≤ l.id) := by
  have hperm : List.Perm (scanIds st) (st.logs.map (fun l => l.id)) :=
    List.perm_insertionSort _ _
  refine ⟨hperm, List.sorted_insertionSort _ _, ?_, ?_, break_up_fresh_ids st⟩
  · exact List.Perm.nodup hperm.symm hWF.1
  · intro i hi
    have : i ∈ st.logs.map (fun l => l.id) := hperm.mem_iff.mp hi
    obtain ⟨l, hl, hle⟩ := List.mem_map.mp this
    rw [← hle]
    exact hWF.2.2.2.1 l hl

/-- Witness for C9 on the self-test fixture. -/
theorem c9_scan_order_witness :
    List.Perm (scanIds fixtureStore) (fixtureStore.logs.map (fun l => l.id)) ∧
    List.Sorted (· ≤ ·) (scanIds fixtureStore) ∧
    (scanIds fixtureStore).Nodup ∧
    (∀ i ∈ scanIds fixtureStore, i < fixtureStore.nextId) ∧
    (∀ l ∈ (break_up_large_documents fixtureStore).logs,
      (∀ l0 ∈ fixtureStore.logs, l0.id ≠ l.id) → fixtureStore.nextId ≤ l.id) :=
  c9_scan_order fixtureStore (by decide)

/-- Claim C10: when an oversized log's first line alone exceeds `max_size`,
the first replacement chunk is empty, keeps `seq = s`, and is persisted with
the first fresh id; in every split, each replacement chunk other than the
first holds at least one line. -/
theorem c10_empty_first_chunk (st : Store) (log : Log) (hmem : log ∈ st.logs)
    (hWF : WF st) (line : Line) (rest : List Line) (hl : log.lines = line :: rest)
    (hbig : max_size < line.size) :
    (∃ l ∈ (processLog st log).logs,
      l.id = st.nextId ∧ l.seq = log.seq ∧ l.lines = []) ∧
    (∀ hd tl, splitChunks log.seq log.lines = hd :: tl → hd = (log.seq, [])) ∧
    (∀ (s2 : Nat) (ls : List Line), ∀ c ∈ (splitChunks s2 ls).drop 1, c.2 ≠ []) := by
  have hover : max_size < logSize log := by
    rw [logSize_eq_sumSize, hl]
    have : sumSize (line :: rest) = line.size + sumSize rest := by
      simp [sumSize]
    omega
  obtain ⟨tl0, htl0⟩ := splitChunks_head_big log.seq line rest hbig
  rw [← hl] at htl0
  refine ⟨?_, ?_, fun s2 ls => splitChunks_tail_ne s2 ls⟩
  · have hhd : newLogs log st.nextId
        = (⟨st.nextId, log.build_id, log.test_id, log.seq, log.started, []⟩ : Log)
          :: assignIds (st.nextId + 1) log tl0 := by
      unfold newLogs
      rw [htl0]
      rfl
    refine ⟨(⟨st.nextId, log.build_id, log.test_id, log.seq, log.started, []⟩ : Log),
      ?_, rfl, rfl, rfl⟩
    rw [processLog_logs st log hover]
    refine mem_deleteOneLog log.id _ _ ?_ ?_
    · refine List.mem_append_right _ ?_
      rw [hhd]
      simp
    · have := hWF.2.2.2.1 log hmem
      simp
      omega
  · intro hd tl heq
    rw [htl0] at heq
    exact (List.cons.inj heq).1.symm

/-- Witness for C10 on the store holding a single over-large line. -/
theorem c10_empty_first_chunk_witness :
    (∃ l ∈ (processLog hugeStore ⟨1, 100, none, 1, 0, [⟨0, max_size + 1, 7⟩]⟩).logs,
      l.id = hugeStore.nextId ∧ l.seq = 1 ∧ l.lines = []) ∧
    (∀ hd tl, splitChunks 1 [⟨0, max_size + 1, 7⟩] = hd :: tl → hd = (1, [])) ∧
    (∀ (s2 : Nat) (ls : List Line), ∀ c ∈ (splitChunks s2 ls).drop 1, c.2 ≠ []) :=
  c10_empty_first_chunk hugeStore ⟨1, 100, none, 1, 0, [⟨0, max_size + 1, 7⟩]⟩
    (by decide) (by decide) ⟨0, max_size + 1, 7⟩ [] rfl (by decide)

end Logkeeper
